import Mathlib

/-!
# genomeuniqfrac: unique k-mer counting

A shallow embedding of `genomeuniqfrac.go` and theorems about it.

Modelling conventions.

* A Go `string` is a `List Char`.  The program indexes and slices strings by byte while
  `revcomp` walks them by rune; both loops of `main` run only after `revcomp` has returned,
  and `revcomp` returns only when every rune is one of nine ASCII letters, so byte offsets
  and rune offsets coincide wherever the slicing code is reached.
* `log.Fatalf` and run-time panics end the process.  They are values of `Fatal`; a function
  that can end the process returns `Except`.
* The package-level variables (`kmerToIndex`, `kmerCounts`, `unique`, `linesPrinted`) and the
  bytes handed to the writer `w` form the record `Globals`, passed explicitly.
* `main` is modelled from line 108 on: its parameter `sequence` is the value bound there
  (the upper-cased file contents), `K` is `args.K` and `hasOutput` says whether `-output` was
  given (`args.Output != ""`), in which case the file is taken to be created and the writer
  to accept every write without error.
  `K` is a natural number; `main` exits on `K == 0` before line 108.
* The parameter `w io.Writer` of `outputKmer` is a value of `Writer`.  `main` passes its
  variable `zw` of type `*lz4.Writer`: the writer made by `lz4.NewWriter` when `-output` was
  given, the nil pointer otherwise.  A nil pointer converted to `io.Writer` is an interface
  value different from `nil`, and calling `Write` through it dereferences the nil pointer.
* Go `int` counters are natural numbers: every counter is bounded by twice the length of the
  input, which itself fits an `int`.
-/

namespace Genomeuniqfrac

/-! ## Data model -/

/-- Ways the process can end abnormally. -/
inductive Fatal where
  /-- The call `log.Fatalf("Invalid base ...")` in `complement`. -/
  | invalidBase (r : Char)
  /-- A run-time panic: index or slice bounds out of range. -/
  | outOfRange
  /-- A run-time panic: nil pointer dereference. -/
  | nilDereference
  deriving DecidableEq, Repr

/-- The values an `io.Writer` argument of `outputKmer` can have. -/
inductive Writer where
  /-- The nil interface value; `w != nil` is false. -/
  | nilInterface
  /-- The nil `*lz4.Writer` converted to `io.Writer`; `w != nil` is true. -/
  | nilPointer
  /-- The writer returned by `lz4.NewWriter`. -/
  | working
  deriving DecidableEq, Repr

/-- The map `kmerToIndex`, kept as an association list in insertion order. -/
abbrev KmerMap := List (List Char × Nat)

/-- The package-level variables together with the bytes written to the writer so far. -/
structure Globals where
  kmerToIndex : KmerMap
  kmerCounts : List Nat
  unique : Nat
  linesPrinted : Nat
  written : List Char
  deriving DecidableEq, Repr

/-- The state when `main` starts: nil map, nil slice, zero counters, nothing written. -/
def Globals.init : Globals :=
  { kmerToIndex := [], kmerCounts := [], unique := 0, linesPrinted := 0, written := [] }

/-- An abnormal end of the process: the cause and the state at that moment. -/
structure Exit where
  fatal : Fatal
  globals : Globals
  deriving DecidableEq, Repr

deriving instance DecidableEq for Except

/-- Attach the current state to a fatal error. -/
def exitWith {α : Type} (g : Globals) : Except Fatal α → Except Exit α
  | .ok a => .ok a
  | .error e => .error ⟨e, g⟩

/-! ## Go primitives -/

/-- Map read `m[k]` in the two-result form: the stored value, or `none` when absent. -/
def mapGet : KmerMap → List Char → Option Nat
  | [], _ => none
  | (k', v) :: rest, k => if k' = k then some v else mapGet rest k

/-- Map write `m[k] = v`: overwrite the entry of `k`, or add one. -/
def mapSet : KmerMap → List Char → Nat → KmerMap
  | [], k, v => [(k, v)]
  | (k', v') :: rest, k, v => if k' = k then (k, v) :: rest else (k', v') :: mapSet rest k v

/-- Slice expression `s[lo:hi]`; panics unless `lo ≤ hi ≤ len(s)`. -/
def slice (s : List Char) (lo hi : Nat) : Except Fatal (List Char) :=
  if lo ≤ hi ∧ hi ≤ s.length then .ok ((s.take hi).drop lo) else .error .outOfRange

/-- Statement `a[idx] += 1` on a slice of ints; panics when `idx` is out of range. -/
def incrAt (a : List Nat) (idx : Nat) : Except Fatal (List Nat) :=
  match a[idx]? with
  | some c => .ok (a.set idx (c + 1))
  | none => .error .outOfRange

/-- Call `fmt.Fprintf(w, ...)` with the formatted bytes `line`: they are handed to `w.Write`,
which panics when there is no writer behind `w`.  The result is the bytes written so far. -/
def fprintf (w : Writer) (written line : List Char) : Except Fatal (List Char) :=
  match w with
  | .working => .ok (written ++ line)
  | .nilPointer => .error .nilDereference
  | .nilInterface => .error .nilDereference

/-- Rendering of an `int` by the verb `%d`: a minus sign when negative, then decimal digits. -/
def fmtD : Int → List Char
  | .ofNat n => Nat.toDigits 10 n
  | .negSucc n => '-' :: Nat.toDigits 10 (n + 1)

/-! ## The program -/

/-- Function `complement` (lines 42-72). -/
def complement (r : Char) : Except Fatal Char :=
  if r = 'A' then .ok 'T'
  else if r = 'T' then .ok 'A'
  else if r = 'G' then .ok 'C'
  else if r = 'C' then .ok 'G'
  else if r = 'N' then .ok 'N'
  else if r = 'a' then .ok 't'
  else if r = 't' then .ok 'a'
  else if r = 'g' then .ok 'c'
  else if r = 'c' then .ok 'g'
  else .error (.invalidBase r)

/-- Body of the `range` loop of `revcomp` (lines 79-80): `o[i] = complement(c); i--`.
The loop state is the rune slice `o` and the signed index `i`. -/
def revcompBody (st : List Char × Int) (c : Char) : Except Fatal (List Char × Int) :=
  match complement c with
  | .error e => .error e
  | .ok d =>
    if 0 ≤ st.2 ∧ st.2.toNat < st.1.length then .ok (st.1.set st.2.toNat d, st.2 - 1)
    else .error .outOfRange

/-- Function `revcomp` (lines 74-83). -/
def revcomp (s : List Char) : Except Fatal (List Char) :=
  let n := s.length
  let o := List.replicate n (Char.ofNat 0)
  let i : Int := (n : Int) - 1
  match s.foldlM revcompBody (o, i) with
  | .error e => .error e
  | .ok st => .ok st.1

/-- The lookup-or-insert idiom used twice in the counting loop (lines 118-123 and 127-132):
returns `idx` and the updated variables. -/
def lookupOrInsert (g : Globals) (kmer : List Char) : Nat × Globals :=
  match mapGet g.kmerToIndex kmer with
  | some idx => (idx, g)
  | none =>
    (g.kmerToIndex.length,
      { g with kmerToIndex := mapSet g.kmerToIndex kmer g.kmerToIndex.length,
               kmerCounts := g.kmerCounts ++ [0] })

/-- Body of the counting loop (lines 117-139) at offset `i`. -/
def countBody (K : Nat) (sequence sequenceRC : List Char) (g : Globals) (i : Nat) :
    Except Exit Globals :=
  match exitWith g (slice sequence i (i + K)) with
  | .error x => .error x
  | .ok kmer =>
    let r := lookupOrInsert g kmer
    match exitWith r.2 (incrAt r.2.kmerCounts r.1) with
    | .error x => .error x
    | .ok counts =>
      let g1 : Globals := { r.2 with kmerCounts := counts }
      match exitWith g1 (slice sequenceRC i (i + K)) with
      | .error x => .error x
      | .ok kmerRC =>
        let r2 := lookupOrInsert g1 kmerRC
        if kmer ≠ kmerRC then
          match exitWith r2.2 (incrAt r2.2.kmerCounts r2.1) with
          | .error x => .error x
          | .ok counts2 => .ok { r2.2 with kmerCounts := counts2 }
        else .ok r2.2

/-- The counting loop (lines 114-140): `for i := 0; i+K <= len(sequence); i++`, started from
the freshly made empty map and slice. -/
def countLoop (K : Nat) (sequence sequenceRC : List Char) (g : Globals) : Except Exit Globals :=
  (List.range (sequence.length + 1 - K)).foldlM (countBody K sequence sequenceRC)
    { g with kmerToIndex := [], kmerCounts := [] }

/-- The inner loop of `outputKmer` (lines 181-188) from index `j` with `n` iterations left:
the final value of `okay`. -/
def acgtLoop (kmer : List Char) : Nat → Nat → Except Fatal Bool
  | 0, _ => .ok true
  | n + 1, j =>
    match kmer[j]? with
    | none => .error .outOfRange
    | some b =>
      if b ≠ 'A' ∧ b ≠ 'T' ∧ b ≠ 'C' ∧ b ≠ 'G' then .ok false
      else acgtLoop kmer n (j + 1)

/-- Function `outputKmer` (lines 175-195). -/
def outputKmer (K : Nat) (w : Writer) (coord : Int) (kmer : List Char) (g : Globals) :
    Except Exit Globals :=
  let idx := (mapGet g.kmerToIndex kmer).getD 0
  match g.kmerCounts[idx]? with
  | none => .error ⟨.outOfRange, g⟩
  | some c =>
    if c = 1 then
      let g1 : Globals := { g with unique := g.unique + 1 }
      if w ≠ Writer.nilInterface then
        match exitWith g1 (acgtLoop kmer K 0) with
        | .error x => .error x
        | .ok okay =>
          if okay then
            match exitWith g1 (fprintf w g1.written (fmtD coord ++ '\t' :: kmer ++ ['\n'])) with
            | .error x => .error x
            | .ok out => .ok { g1 with written := out, linesPrinted := g1.linesPrinted + 1 }
          else .ok g1
      else .ok g1
    else .ok g

/-- Body of the second loop of `main` (lines 156-161) at offset `i`. -/
def streamBody (K : Nat) (w : Writer) (sequence sequenceRC : List Char) (g : Globals)
    (i : Nat) : Except Exit Globals :=
  match exitWith g (slice sequence i (i + K)) with
  | .error x => .error x
  | .ok kmer =>
    match outputKmer K w (i : Int) kmer g with
    | .error x => .error x
    | .ok g1 =>
      match exitWith g1 (slice sequenceRC i (i + K)) with
      | .error x => .error x
      | .ok kmerRC => outputKmer K w (-(i : Int)) kmerRC g1

/-- The second loop of `main` (lines 155-162). -/
def streamLoop (K : Nat) (w : Writer) (sequence sequenceRC : List Char) (g : Globals) :
    Except Exit Globals :=
  (List.range (sequence.length + 1 - K)).foldlM (streamBody K w sequence sequenceRC) g

/-- Function `main` from line 108 to its end: reverse complement, counting loop, second
loop.  The variable `zw` stays the nil pointer unless `-output` was given, and is what both
calls of `outputKmer` receive.  The result is the final state, or the abnormal end of the
process. -/
def main (K : Nat) (hasOutput : Bool) (sequence : List Char) : Except Exit Globals :=
  match exitWith Globals.init (revcomp sequence) with
  | .error x => .error x
  | .ok sequenceRC =>
    match countLoop K sequence sequenceRC Globals.init with
    | .error x => .error x
    | .ok g =>
      let zw : Writer := if hasOutput then Writer.working else Writer.nilPointer
      streamLoop K zw sequence sequenceRC g

/-! ## Specification-side vocabulary -/

/-- Substring `s[lo:hi]` where the bounds are known to be in range. -/
def substr (s : List Char) (lo hi : Nat) : List Char := (s.take hi).drop lo

/-- A symbol accepted by `complement`. -/
def recognized (c : Char) : Bool :=
  match complement c with
  | .ok _ => true
  | .error _ => false

/-- A valid sequence: every symbol is accepted by `complement`. -/
def Valid (s : List Char) : Prop := ∀ c ∈ s, recognized c = true

instance (s : List Char) : Decidable (Valid s) :=
  inferInstanceAs (Decidable (∀ c ∈ s, recognized c = true))

/-- The complement of a recognized symbol, as a total function (other symbols are kept). -/
def compl (c : Char) : Char :=
  match complement c with
  | .ok d => d
  | .error _ => c

/-- The count stored in the index for k-mer content `X`: `kmerCounts[kmerToIndex[X]]` when
`X` is a key, nothing otherwise. -/
def storedCount (g : Globals) (X : List Char) : Option Nat :=
  match mapGet g.kmerToIndex X with
  | some idx => g.kmerCounts[idx]?
  | none => none

/-- Well-formedness of the index: the values of `kmerToIndex`, in insertion order, are
`0, 1, ..., len(kmerCounts) - 1`, and no key is repeated. -/
structure WF (g : Globals) : Prop where
  vals : g.kmerToIndex.map Prod.snd = List.range g.kmerCounts.length
  keys : (g.kmerToIndex.map Prod.fst).Nodup

/-- Brute-force count of `X` over the offsets below `n`: forward extracts equal to `X`, plus
reverse-strand extracts equal to `X` that differ from the forward extract at the same offset. -/
def bfUpTo (K : Nat) (S RC : List Char) (n : Nat) (X : List Char) : Nat :=
  (List.range n).countP (fun i => substr S i (i + K) = X) +
  (List.range n).countP
    (fun i => substr RC i (i + K) = X ∧ substr RC i (i + K) ≠ substr S i (i + K))

/-- Brute-force count `bf(X)` over all offsets `0 .. L-K`. -/
def bf (K : Nat) (S RC : List Char) (X : List Char) : Nat :=
  bfUpTo K S RC (S.length + 1 - K) X

/-- The assignment to `kmerCounts` that ends `kmerCounts[idx] += 1`. -/
def setCounts (g : Globals) (counts : List Nat) : Globals := { g with kmerCounts := counts }

/-- The alphabet test of `outputKmer`: the symbol is one of A, T, C, G. -/
def isACGT (b : Char) : Bool := decide (b = 'A' ∨ b = 'T' ∨ b = 'C' ∨ b = 'G')

/-- Every symbol of the k-mer is one of A, T, G, C. -/
def acgtPure (kmer : List Char) : Bool := kmer.all isACGT

/-- An output record: the decimal signed coordinate, a tab, the k-mer, a newline. -/
def recordLine (coord : Int) (kmer : List Char) : List Char :=
  fmtD coord ++ '\t' :: kmer ++ ['\n']

/-- The state after a candidate whose index count is `c` has been handled without a panic:
the unique counter moves iff `c = 1`; a line is written and counted iff moreover there is a
sink (`hasSink`: the writer is the working one) and the k-mer is ACGT-pure. -/
def afterCandidate (hasSink : Bool) (coord : Int) (kmer : List Char) (c : Nat) (g : Globals) :
    Globals :=
  { g with
    unique := g.unique + (if c = 1 then 1 else 0),
    linesPrinted :=
      g.linesPrinted + (if c = 1 ∧ hasSink = true ∧ acgtPure kmer = true then 1 else 0),
    written :=
      g.written ++
        (if c = 1 ∧ hasSink = true ∧ acgtPure kmer = true then recordLine coord kmer else []) }

/-- The candidates of the second loop over the offsets below `n`, in generation order: at
each offset the forward candidate, then the reverse one with the negated coordinate. -/
def candidatesUpTo (K : Nat) (S RC : List Char) (n : Nat) : List (Int × List Char) :=
  (List.range n).flatMap fun i =>
    [((i : Int), substr S i (i + K)), (-(i : Int), substr RC i (i + K))]

/-- All candidates of the second loop, offsets `0 .. L-K`. -/
def candidates (K : Nat) (S RC : List Char) : List (Int × List Char) :=
  candidatesUpTo K S RC (S.length + 1 - K)

/-- The state after a list of candidates has been handled, when `cnt` gives the index count
of every candidate: the unique counter grows by the number of candidates with count 1, and
with a sink the records of those that are also ACGT-pure are appended in order. -/
def afterCandidates (hasSink : Bool) (cnt : List Char → Nat) (cs : List (Int × List Char))
    (g : Globals) : Globals :=
  { g with
    unique := g.unique + cs.countP (fun c => cnt c.2 = 1),
    linesPrinted := g.linesPrinted +
      (cs.filter (fun c => cnt c.2 = 1 ∧ hasSink = true ∧ acgtPure c.2 = true)).length,
    written := g.written ++
      (cs.filter (fun c => cnt c.2 = 1 ∧ hasSink = true ∧ acgtPure c.2 = true)).flatMap
        (fun c => recordLine c.1 c.2) }

/-- The reverse complement of a valid sequence, in closed form. -/
def rcOf (S : List Char) : List Char := (S.map compl).reverse

/-- The number of (strand, offset) pairs, offsets `0 .. L-K`, whose extract equals `X`. -/
def strandOffsetPairs (K : Nat) (S RC : List Char) (X : List Char) : Nat :=
  (List.range (S.length + 1 - K)).countP (fun i => substr S i (i + K) = X) +
  (List.range (S.length + 1 - K)).countP (fun i => substr RC i (i + K) = X)

/-- The k-mer equals its own reverse complement. -/
def selfComplementary (X : List Char) : Prop := revcomp X = .ok X

instance (X : List Char) : Decidable (selfComplementary X) :=
  inferInstanceAs (Decidable (revcomp X = .ok X))

/-- The number of offsets `0 .. L-K` at which the forward k-mer is self-complementary. -/
def selfComplementaryOccurrences (K : Nat) (S : List Char) : Nat :=
  (List.range (S.length + 1 - K)).countP (fun i => selfComplementary (substr S i (i + K)))

/-- The forward offsets `0 .. L-K` at which `X` occurs in `S`. -/
def forwardOffsets (K : Nat) (S : List Char) (X : List Char) : List Nat :=
  (List.range (S.length + 1 - K)).filter (fun i => substr S i (i + K) = X)

/-- The bytes the sink is expected to hold: for each offset in increasing order the record of
the forward candidate, then that of the reverse candidate, each kept only when its index count
is 1 and it is ACGT-pure. -/
def expectedOutput (K : Nat) (S RC : List Char) (count : List Char → Option Nat) : List Char :=
  (List.range (S.length + 1 - K)).flatMap fun i =>
    (if count (substr S i (i + K)) = some 1 ∧ acgtPure (substr S i (i + K)) = true
      then recordLine (i : Int) (substr S i (i + K)) else []) ++
    (if count (substr RC i (i + K)) = some 1 ∧ acgtPure (substr RC i (i + K)) = true
      then recordLine (-(i : Int)) (substr RC i (i + K)) else [])

/-- The sum of `Index[X]` over the distinct k-mers `X` of the index. -/
def indexSum (g : Globals) : Nat :=
  (g.kmerToIndex.map fun p => (storedCount g p.1).getD 0).sum

/-- A count as the index stores it: absent when zero. -/
def optCount (c : Nat) : Option Nat := if c = 0 then none else some c

/-- The number of offsets `0 .. L-K` at which the two strands' extracts are equal. -/
def sameOffsetEqual (K : Nat) (S RC : List Char) : Nat :=
  (List.range (S.length + 1 - K)).countP (fun i => substr S i (i + K) = substr RC i (i + K))

/-- The uppercase alphabet of the data model. -/
def upperAlphabet : List Char := ['A', 'T', 'G', 'C', 'N']

/-- The state of the counting loop after its first `n` iterations (offsets `0 .. n-1`). -/
def countIterations (K : Nat) (sequence sequenceRC : List Char) (n : Nat) :
    Except Exit Globals :=
  (List.range n).foldlM (countBody K sequence sequenceRC)
    { Globals.init with kmerToIndex := [], kmerCounts := [] }

/-! ## The map primitives -/

theorem mapGet_mem {m : KmerMap} {k : List Char} {v : Nat} (h : mapGet m k = some v) :
    (k, v) ∈ m := by
  induction m with
  | nil => simp [mapGet] at h
  | cons p rest ih =>
    obtain ⟨k', v'⟩ := p
    by_cases hk : k' = k
    · simp [mapGet, hk] at h; simp [hk, h]
    · simp [mapGet, hk] at h; simp [ih h]

theorem mapGet_none_not_mem {m : KmerMap} {k : List Char} (h : mapGet m k = none) :
    k ∉ m.map Prod.fst := by
  induction m with
  | nil => simp
  | cons p rest ih =>
    obtain ⟨k', v'⟩ := p
    by_cases hk : k' = k
    · simp [mapGet, hk] at h
    · simp [mapGet, hk] at h
      simp only [List.map_cons, List.mem_cons, not_or]
      exact ⟨fun e => hk e.symm, ih h⟩

theorem mapSet_of_none {m : KmerMap} {k : List Char} (v : Nat) (h : mapGet m k = none) :
    mapSet m k v = m ++ [(k, v)] := by
  induction m with
  | nil => simp [mapSet]
  | cons p rest ih =>
    obtain ⟨k', v'⟩ := p
    by_cases hk : k' = k
    · simp [mapGet, hk] at h
    · simp [mapGet, hk] at h
      simp [mapSet, hk, ih h]

theorem mapGet_append (m : KmerMap) (k y : List Char) (v : Nat) :
    mapGet (m ++ [(k, v)]) y =
      match mapGet m y with
      | some j => some j
      | none => if k = y then some v else none := by
  induction m with
  | nil => simp [mapGet]
  | cons p rest ih =>
    obtain ⟨k', v'⟩ := p
    by_cases hk : k' = y
    · simp [mapGet, hk]
    · simp [mapGet, hk, ih]

theorem WF.lt {g : Globals} (h : WF g) {k : List Char} {v : Nat}
    (hk : mapGet g.kmerToIndex k = some v) : v < g.kmerCounts.length := by
  have hm : v ∈ g.kmerToIndex.map Prod.snd := List.mem_map.2 ⟨(k, v), mapGet_mem hk, rfl⟩
  rw [h.vals] at hm
  exact List.mem_range.1 hm

theorem WF.len {g : Globals} (h : WF g) : g.kmerToIndex.length = g.kmerCounts.length := by
  have := congrArg List.length h.vals
  simpa using this

theorem WF.inj {g : Globals} (h : WF g) {k k' : List Char} {v : Nat}
    (hk : mapGet g.kmerToIndex k = some v) (hk' : mapGet g.kmerToIndex k' = some v) :
    k = k' := by
  have hn : (g.kmerToIndex.map Prod.snd).Nodup := by rw [h.vals]; exact List.nodup_range _
  have := List.inj_on_of_nodup_map hn (mapGet_mem hk) (mapGet_mem hk') rfl
  exact congrArg Prod.fst this


/-! ## Reverse complement -/

theorem recognized_iff (c : Char) :
    recognized c = true ↔ c ∈ ['A', 'T', 'G', 'C', 'N', 'a', 't', 'g', 'c'] := by
  unfold recognized complement
  simp only [List.mem_cons, List.mem_singleton, List.not_mem_nil, or_false]
  constructor
  · intro h
    split_ifs at h <;> simp_all
  · intro h
    rcases h with h | h | h | h | h | h | h | h | h <;> subst h <;> decide

theorem complement_of_recognized {c : Char} (h : recognized c = true) :
    complement c = .ok (compl c) := by
  unfold recognized at h
  unfold compl
  cases hc : complement c with
  | ok d => rfl
  | error e => simp [hc] at h

theorem complement_of_not_recognized {c : Char} (h : recognized c ≠ true) :
    complement c = .error (.invalidBase c) := by
  have h' : c ∉ ['A', 'T', 'G', 'C', 'N', 'a', 't', 'g', 'c'] := fun hm => h ((recognized_iff c).2 hm)
  simp only [List.mem_cons, List.mem_singleton, List.not_mem_nil, or_false, not_or] at h'
  obtain ⟨h1, h2, h3, h4, h5, h6, h7, h8, h9⟩ := h'
  simp only [complement, if_neg h1, if_neg h2, if_neg h3, if_neg h4, if_neg h5, if_neg h6,
    if_neg h7, if_neg h8, if_neg h9]

theorem compl_compl {c : Char} (h : recognized c = true) : compl (compl c) = c := by
  rw [recognized_iff] at h
  simp only [List.mem_cons, List.mem_singleton, List.not_mem_nil, or_false] at h
  rcases h with h | h | h | h | h | h | h | h | h <;> subst h <;> decide

theorem recognized_compl {c : Char} (h : recognized c = true) : recognized (compl c) = true := by
  rw [recognized_iff] at h
  simp only [List.mem_cons, List.mem_singleton, List.not_mem_nil, or_false] at h
  rcases h with h | h | h | h | h | h | h | h | h <;> subst h <;> decide

/-- Loop invariant of `revcomp`: after a valid prefix `p` the last `p.length` cells of `o`
hold the complements of `p` in reverse, and `i` has moved down by `p.length`. -/
theorem revcomp_fold (p : List Char) (hp : Valid p) (k : Nat) (acc : List Char) :
    p.foldlM revcompBody
        (List.replicate (p.length + k) (Char.ofNat 0) ++ acc, ((p.length + k : Nat) : Int) - 1) =
      .ok (List.replicate k (Char.ofNat 0) ++ ((p.map compl).reverse ++ acc), (k : Int) - 1) := by
  induction p generalizing acc with
  | nil => simp [pure, Except.pure]
  | cons c t ih =>
    have hc : recognized c = true := hp c (List.mem_cons_self _ _)
    have ht : Valid t := fun d hd => hp d (List.mem_cons_of_mem _ hd)
    have e1 : (((c :: t).length + k : Nat) : Int) - 1 = ((t.length + k : Nat) : Int) := by
      simp only [List.length_cons]; omega
    have e2 : List.replicate ((c :: t).length + k) (Char.ofNat 0) ++ acc
        = List.replicate (t.length + k) (Char.ofNat 0) ++ (Char.ofNat 0 :: acc) := by
      have : (c :: t).length + k = (t.length + k) + 1 := by simp only [List.length_cons]; omega
      rw [this, List.replicate_succ', List.append_assoc]; rfl
    rw [List.foldlM_cons, e1, e2]
    have step : revcompBody
        (List.replicate (t.length + k) (Char.ofNat 0) ++ (Char.ofNat 0 :: acc),
          ((t.length + k : Nat) : Int)) c
        = .ok (List.replicate (t.length + k) (Char.ofNat 0) ++ (compl c :: acc),
          ((t.length + k : Nat) : Int) - 1) := by
      unfold revcompBody
      rw [complement_of_recognized hc]
      simp only [Int.toNat_ofNat]
      rw [if_pos]
      · congr 2
        rw [List.set_append_right _ _ (by simp)]
        simp
      · constructor
        · omega
        · simp
    rw [step]
    show List.foldlM revcompBody _ t = _
    rw [ih ht (compl c :: acc)]
    simp

theorem revcomp_of_valid {s : List Char} (hs : Valid s) :
    revcomp s = .ok ((s.map compl).reverse) := by
  unfold revcomp
  have := revcomp_fold s hs 0 []
  simp only [Nat.add_zero, List.append_nil, List.replicate_zero, List.nil_append] at this
  simp only [this]

theorem revcompBody_error {c : Char} (h : recognized c ≠ true) (st : List Char × Int) :
    revcompBody st c = .error (.invalidBase c) := by
  unfold revcompBody
  rw [complement_of_not_recognized h]

/-- A sequence with an unrecognized symbol makes `revcomp` stop at the first such symbol. -/
theorem revcomp_of_invalid (p q : List Char) (r : Char) (hp : Valid p)
    (hr : recognized r ≠ true) : revcomp (p ++ r :: q) = .error (.invalidBase r) := by
  have e : (p ++ r :: q).length = p.length + (q.length + 1) := by simp
  have := revcomp_fold p hp (q.length + 1) []
  simp only [List.append_nil] at this
  simp only [revcomp, List.foldlM_append, e, this]
  simp only [bind, Except.bind, List.foldlM_cons, revcompBody_error hr]

/-- Every sequence is valid or splits at its first unrecognized symbol. -/
theorem valid_or_split (s : List Char) :
    Valid s ∨ ∃ p r q, s = p ++ r :: q ∧ Valid p ∧ recognized r ≠ true := by
  induction s with
  | nil => left; intro c hc; simp at hc
  | cons c t ih =>
    by_cases hc : recognized c = true
    · rcases ih with h | ⟨p, r, q, he, hp, hr⟩
      · left
        intro d hd
        rcases List.mem_cons.1 hd with rfl | hd
        · exact hc
        · exact h d hd
      · right
        refine ⟨c :: p, r, q, by simp [he], ?_, hr⟩
        intro d hd
        rcases List.mem_cons.1 hd with rfl | hd
        · exact hc
        · exact hp d hd
    · right
      exact ⟨[], c, t, rfl, by intro d hd; simp at hd, hc⟩


/-! ## The counting loop -/

theorem storedCount_of_get {g : Globals} {X : List Char} {idx : Nat}
    (h : mapGet g.kmerToIndex X = some idx) : storedCount g X = g.kmerCounts[idx]? := by
  simp [storedCount, h]

theorem storedCount_of_none {g : Globals} {X : List Char}
    (h : mapGet g.kmerToIndex X = none) : storedCount g X = none := by
  simp [storedCount, h]

/-- Lookup-or-insert followed by `kmerCounts[idx] += 1` never panics on a well-formed index,
keeps it well formed, and raises the stored count of `X` by one, leaving all others. -/
theorem bump_spec (g : Globals) (hg : WF g) (X : List Char) :
    ∃ counts, incrAt (lookupOrInsert g X).2.kmerCounts (lookupOrInsert g X).1 = .ok counts ∧
      WF (setCounts (lookupOrInsert g X).2 counts) ∧
      (∀ Y, storedCount (setCounts (lookupOrInsert g X).2 counts) Y =
        if Y = X then some ((storedCount g X).getD 0 + 1) else storedCount g Y) ∧
      (lookupOrInsert g X).2.unique = g.unique ∧
      (lookupOrInsert g X).2.linesPrinted = g.linesPrinted ∧
      (lookupOrInsert g X).2.written = g.written := by
  cases hX : mapGet g.kmerToIndex X with
  | some idx =>
    have hlt : idx < g.kmerCounts.length := hg.lt hX
    have hl : lookupOrInsert g X = (idx, g) := by simp [lookupOrInsert, hX]
    rw [hl]
    refine ⟨g.kmerCounts.set idx (g.kmerCounts[idx] + 1), ?_, ?_, ?_, rfl, rfl, rfl⟩
    · simp [incrAt, List.getElem?_eq_getElem hlt]
    · exact ⟨by simpa [setCounts] using hg.vals, hg.keys⟩
    · intro Y
      by_cases hY : Y = X
      · subst hY
        simp [storedCount, setCounts, hX, List.getElem?_eq_getElem hlt, hlt]
      · simp only [hY, if_false]
        cases hYm : mapGet g.kmerToIndex Y with
        | none => simp [storedCount, setCounts, hYm]
        | some j =>
          have hne : idx ≠ j := by
            intro e; subst e
            exact hY (hg.inj hYm hX)
          simp [storedCount, setCounts, hYm, List.getElem?_set, hne]
  | none =>
    have hl : lookupOrInsert g X = (g.kmerToIndex.length,
        { g with kmerToIndex := g.kmerToIndex ++ [(X, g.kmerToIndex.length)],
                 kmerCounts := g.kmerCounts ++ [0] }) := by
      simp [lookupOrInsert, hX, mapSet_of_none _ hX]
    rw [hl]
    have hlen := hg.len
    refine ⟨g.kmerCounts ++ [1], ?_, ?_, ?_, rfl, rfl, rfl⟩
    · simp [incrAt, hlen]
    · constructor
      · simp [setCounts, hg.vals, hlen, List.range_succ]
      · simp only [setCounts, List.map_append, List.map_cons, List.map_nil]
        rw [List.nodup_append]
        refine ⟨hg.keys, List.nodup_singleton _, ?_⟩
        intro a ha hb
        rw [List.mem_singleton] at hb
        subst hb
        exact mapGet_none_not_mem hX ha
    · intro Y
      by_cases hY : Y = X
      · subst hY
        simp [storedCount, setCounts, hX, mapGet_append, hlen]
      · have hYX : ¬ X = Y := fun e => hY e.symm
        simp only [hY, if_false]
        cases hYm : mapGet g.kmerToIndex Y with
        | none => simp [storedCount, setCounts, hYm, mapGet_append, hYX]
        | some j =>
          have hj : j < g.kmerCounts.length := hg.lt hYm
          simp [storedCount, setCounts, hYm, mapGet_append, List.getElem?_append_left hj]


theorem slice_ok {s : List Char} {lo hi : Nat} (h1 : lo ≤ hi) (h2 : hi ≤ s.length) :
    slice s lo hi = .ok (substr s lo hi) := by
  simp [slice, substr, h1, h2]

theorem mapGet_isSome_of_storedCount {g : Globals} {X : List Char} {c : Nat}
    (h : storedCount g X = some c) : ∃ idx, mapGet g.kmerToIndex X = some idx := by
  cases hX : mapGet g.kmerToIndex X with
  | none => simp [storedCount, hX] at h
  | some idx => exact ⟨idx, rfl⟩

theorem lookupOrInsert_of_get {g : Globals} {X : List Char} {idx : Nat}
    (h : mapGet g.kmerToIndex X = some idx) : lookupOrInsert g X = (idx, g) := by
  simp [lookupOrInsert, h]

/-- The body of the counting loop, with its two assignments to `kmerCounts` named. -/
theorem countBody_unfold (K : Nat) (S RC : List Char) (g : Globals) (i : Nat) :
    countBody K S RC g i =
      match exitWith g (slice S i (i + K)) with
      | .error x => .error x
      | .ok kmer =>
        match exitWith (lookupOrInsert g kmer).2
          (incrAt (lookupOrInsert g kmer).2.kmerCounts (lookupOrInsert g kmer).1) with
        | .error x => .error x
        | .ok counts =>
          match exitWith (setCounts (lookupOrInsert g kmer).2 counts) (slice RC i (i + K)) with
          | .error x => .error x
          | .ok kmerRC =>
            if kmer ≠ kmerRC then
              match exitWith (lookupOrInsert (setCounts (lookupOrInsert g kmer).2 counts) kmerRC).2
                (incrAt
                  (lookupOrInsert (setCounts (lookupOrInsert g kmer).2 counts) kmerRC).2.kmerCounts
                  (lookupOrInsert (setCounts (lookupOrInsert g kmer).2 counts) kmerRC).1) with
              | .error x => .error x
              | .ok counts2 =>
                .ok (setCounts
                  (lookupOrInsert (setCounts (lookupOrInsert g kmer).2 counts) kmerRC).2 counts2)
            else .ok (lookupOrInsert (setCounts (lookupOrInsert g kmer).2 counts) kmerRC).2 :=
  rfl

/-- One iteration of the counting loop on a well-formed index whose stored counts are given
by `f`: it does not panic, and the counts afterwards are `f` plus the contribution of offset
`i`. -/
theorem countBody_spec (K : Nat) (S RC : List Char) (g : Globals) (hg : WF g) (i : Nat)
    (hi : i + K ≤ S.length) (hrc : RC.length = S.length) (f : List Char → Nat)
    (hf : ∀ Y, storedCount g Y = optCount (f Y)) :
    ∃ g', countBody K S RC g i = .ok g' ∧ WF g' ∧
      (∀ Y, storedCount g' Y = optCount (f Y + (if substr S i (i + K) = Y then 1 else 0) +
        (if substr RC i (i + K) = Y ∧ substr RC i (i + K) ≠ substr S i (i + K) then 1 else 0))) ∧
      g'.unique = g.unique ∧ g'.linesPrinted = g.linesPrinted ∧ g'.written = g.written := by
  have hs1 : slice S i (i + K) = .ok (substr S i (i + K)) := slice_ok (by omega) hi
  have hs2 : slice RC i (i + K) = .ok (substr RC i (i + K)) := slice_ok (by omega) (by omega)
  obtain ⟨c1, hc1, hwf1, hst1, hu1, hl1, hw1⟩ := bump_spec g hg (substr S i (i + K))
  have hfw : (storedCount g (substr S i (i + K))).getD 0 = f (substr S i (i + K)) := by
    rw [hf]; unfold optCount; split_ifs with h0 <;> simp [h0]
  rw [countBody_unfold]
  simp only [hs1, hs2, exitWith, hc1]
  by_cases heq : substr S i (i + K) = substr RC i (i + K)
  · obtain ⟨idx, hidx⟩ := mapGet_isSome_of_storedCount
      (by rw [hst1 (substr RC i (i + K)), if_pos heq.symm] :
        storedCount (setCounts (lookupOrInsert g (substr S i (i + K))).2 c1)
          (substr RC i (i + K)) = some _)
    refine ⟨setCounts (lookupOrInsert g (substr S i (i + K))).2 c1, ?_, hwf1, ?_,
      hu1, hl1, hw1⟩
    · rw [lookupOrInsert_of_get hidx]
      simp [heq]
    · intro Y
      rw [hst1 Y, hfw]
      by_cases hY : Y = substr S i (i + K)
      · subst hY
        simp [optCount, ← heq]
      · have hY' : ¬ substr S i (i + K) = Y := fun e => hY e.symm
        have hY'' : ¬ substr RC i (i + K) = Y := fun e => hY' (heq.trans e)
        simp [hY, hY', hY'', hf]
  · obtain ⟨c2, hc2, hwf2, hst2, hu2, hl2, hw2⟩ := bump_spec
      (setCounts (lookupOrInsert g (substr S i (i + K))).2 c1) hwf1
      (substr RC i (i + K))
    refine ⟨_, ?_, hwf2, ?_, hu2.trans hu1, hl2.trans hl1, hw2.trans hw1⟩
    · simp only [hc2]
      simp [heq]
    · intro Y
      have heq' : ¬ substr RC i (i + K) = substr S i (i + K) := fun e => heq e.symm
      rw [hst2 Y, hst1, hst1 Y, hfw]
      by_cases hY : Y = substr S i (i + K)
      · subst hY
        simp [optCount, heq, heq']
      · have hY' : ¬ substr S i (i + K) = Y := fun e => hY e.symm
        by_cases hR : Y = substr RC i (i + K)
        · subst hR
          simp only [if_true, if_neg heq', if_neg heq, hf]
          unfold optCount
          split_ifs <;> simp_all
        · have hR' : ¬ substr RC i (i + K) = Y := fun e => hR e.symm
          simp [hY, hY', hR, hR', hf]


theorem bfUpTo_succ (K : Nat) (S RC : List Char) (n : Nat) (X : List Char) :
    bfUpTo K S RC (n + 1) X = bfUpTo K S RC n X + (if substr S n (n + K) = X then 1 else 0) +
      (if substr RC n (n + K) = X ∧ substr RC n (n + K) ≠ substr S n (n + K) then 1 else 0) := by
  simp only [bfUpTo, List.range_succ, List.countP_append, List.countP_cons, List.countP_nil,
    decide_eq_true_eq, Nat.zero_add]
  omega

/-- Loop invariant of the counting loop after `n` iterations. -/
theorem countLoop_upTo (K : Nat) (S RC : List Char) (hrc : RC.length = S.length) (g0 : Globals)
    (n : Nat) (hn : n ≤ S.length + 1 - K) :
    ∃ g, (List.range n).foldlM (countBody K S RC)
        { g0 with kmerToIndex := [], kmerCounts := [] } = .ok g ∧ WF g ∧
      (∀ Y, storedCount g Y = optCount (bfUpTo K S RC n Y)) ∧
      g.unique = g0.unique ∧ g.linesPrinted = g0.linesPrinted ∧ g.written = g0.written := by
  induction n with
  | zero =>
    refine ⟨_, rfl, ⟨rfl, List.nodup_nil⟩, ?_, rfl, rfl, rfl⟩
    intro Y
    simp [storedCount, mapGet, optCount, bfUpTo]
  | succ n ih =>
    obtain ⟨g, hfold, hwf, hst, hu, hl, hw⟩ := ih (by omega)
    obtain ⟨g', hbody, hwf', hst', hu', hl', hw'⟩ :=
      countBody_spec K S RC g hwf n (by omega) hrc (bfUpTo K S RC n) hst
    refine ⟨g', ?_, hwf', ?_, hu'.trans hu, hl'.trans hl, hw'.trans hw⟩
    · rw [List.range_succ, List.foldlM_append, hfold]
      simp only [bind, Except.bind, List.foldlM_cons, List.foldlM_nil, hbody]
      rfl
    · intro Y
      rw [hst' Y, bfUpTo_succ]

theorem countLoop_spec (K : Nat) (S RC : List Char) (hrc : RC.length = S.length)
    (g0 : Globals) :
    ∃ g, countLoop K S RC g0 = .ok g ∧ WF g ∧
      (∀ Y, storedCount g Y = optCount (bf K S RC Y)) ∧
      g.unique = g0.unique ∧ g.linesPrinted = g0.linesPrinted ∧ g.written = g0.written :=
  countLoop_upTo K S RC hrc g0 (S.length + 1 - K) (Nat.le_refl _)


/-! ## The second loop -/

theorem acgtLoop_spec (kmer : List Char) (n j : Nat) (h : j + n = kmer.length) :
    acgtLoop kmer n j = .ok ((kmer.drop j).all isACGT) := by
  induction n generalizing j with
  | zero =>
    have : kmer.drop j = [] := List.drop_eq_nil_of_le (by omega)
    simp [acgtLoop, this]
  | succ n ih =>
    have hj : j < kmer.length := by omega
    have hd : kmer.drop j = kmer[j] :: kmer.drop (j + 1) := List.drop_eq_getElem_cons hj
    unfold acgtLoop
    rw [List.getElem?_eq_getElem hj]
    simp only
    by_cases hb : isACGT kmer[j] = true
    · have hb' := hb
      simp only [isACGT, decide_eq_true_eq] at hb'
      rw [if_neg (by tauto), ih (j + 1) (by omega), hd, List.all_cons, hb, Bool.true_and]
    · have hb' := hb
      simp only [isACGT, decide_eq_true_eq] at hb'
      rw [if_pos (by tauto), hd, List.all_cons]
      simp [hb]

/-- What `outputKmer` does to a candidate that is a key of the index with stored count `c`
and has `K` symbols, for every writer: the only abnormal end is the nil dereference, when the
count is 1, the k-mer is ACGT-pure and the writer is the nil pointer. -/
theorem outputKmer_spec (K : Nat) (w : Writer) (coord : Int) (kmer : List Char)
    (g : Globals) (c : Nat) (hc : storedCount g kmer = some c) (hlen : kmer.length = K) :
    outputKmer K w coord kmer g =
      if c = 1 ∧ w = Writer.nilPointer ∧ acgtPure kmer = true then
        .error ⟨.nilDereference, { g with unique := g.unique + 1 }⟩
      else .ok (afterCandidate (decide (w = Writer.working)) coord kmer c g) := by
  obtain ⟨idx, hidx⟩ := mapGet_isSome_of_storedCount hc
  have hcnt : g.kmerCounts[idx]? = some c := by rw [← storedCount_of_get hidx]; exact hc
  have hloop : acgtLoop kmer K 0 = .ok (acgtPure kmer) := by
    rw [acgtLoop_spec kmer K 0 (by omega)]; rfl
  unfold outputKmer
  simp only [hidx, Option.getD_some, hcnt, hloop, exitWith]
  by_cases h1 : c = 1
  · cases w
    · simp [afterCandidate, h1]
    · cases hp : acgtPure kmer
      · simp [afterCandidate, h1, hp]
      · simp [afterCandidate, h1, hp, fprintf]
    · cases hp : acgtPure kmer
      · simp [afterCandidate, h1, hp]
      · simp [afterCandidate, h1, hp, recordLine, fprintf]
  · simp [afterCandidate, h1]

/-- With the working writer `outputKmer` always returns normally. -/
theorem outputKmer_working (K : Nat) (coord : Int) (kmer : List Char)
    (g : Globals) (c : Nat) (hc : storedCount g kmer = some c) (hlen : kmer.length = K) :
    outputKmer K Writer.working coord kmer g = .ok (afterCandidate true coord kmer c g) := by
  rw [outputKmer_spec K Writer.working coord kmer g c hc hlen]
  simp


theorem storedCount_afterCandidate (hasSink : Bool) (coord : Int) (kmer : List Char) (c : Nat)
    (g : Globals) (Y : List Char) :
    storedCount (afterCandidate hasSink coord kmer c g) Y = storedCount g Y := rfl

/-- Handling a list of candidates, all keys of the index with counts given by `cnt` and all
of `K` symbols, with the working writer never panics and ends in `afterCandidates`. -/
theorem outputKmer_fold (K : Nat) (cnt : List Char → Nat)
    (cs : List (Int × List Char)) (g : Globals)
    (hcs : ∀ c ∈ cs, storedCount g c.2 = some (cnt c.2) ∧ c.2.length = K) :
    cs.foldlM (fun g c => outputKmer K Writer.working c.1 c.2 g) g =
      .ok (afterCandidates true cnt cs g) := by
  induction cs generalizing g with
  | nil =>
    simp [afterCandidates, pure, Except.pure]
  | cons c t ih =>
    have hc := hcs c (List.mem_cons_self _ _)
    rw [List.foldlM_cons, outputKmer_working K c.1 c.2 g (cnt c.2) hc.1 hc.2]
    simp only [bind, Except.bind]
    rw [ih (afterCandidate true c.1 c.2 (cnt c.2) g)
      (fun d hd => by
        rw [storedCount_afterCandidate]
        exact hcs d (List.mem_cons_of_mem _ hd))]
    congr 1
    by_cases h : cnt c.2 = 1 ∧ acgtPure c.2 = true
    · have h1 : cnt c.2 = 1 := h.1
      have h3 : acgtPure c.2 = true := h.2
      simp [afterCandidates, afterCandidate, List.countP_cons, List.filter_cons, h1, h3,
        List.flatMap_cons, Nat.add_assoc, Nat.add_comm 1]
    · by_cases h1 : cnt c.2 = 1
      · have h2 : ¬ (acgtPure c.2 = true) := fun h' => h ⟨h1, h'⟩
        simp [afterCandidates, afterCandidate, List.countP_cons, List.filter_cons, h1, h2,
          Nat.add_assoc, Nat.add_comm 1]
      · simp [afterCandidates, afterCandidate, List.countP_cons, List.filter_cons, h, h1]

theorem candidatesUpTo_succ (K : Nat) (S RC : List Char) (n : Nat) :
    candidatesUpTo K S RC (n + 1) = candidatesUpTo K S RC n ++
      [((n : Int), substr S n (n + K)), (-(n : Int), substr RC n (n + K))] := by
  simp [candidatesUpTo, List.range_succ, List.flatMap_append]

theorem streamBody_eq (K : Nat) (w : Writer) (S RC : List Char) (g : Globals) (i : Nat)
    (hi : i + K ≤ S.length) (hrc : RC.length = S.length) :
    streamBody K w S RC g i =
      [((i : Int), substr S i (i + K)), (-(i : Int), substr RC i (i + K))].foldlM
        (fun g c => outputKmer K w c.1 c.2 g) g := by
  have hs1 : slice S i (i + K) = .ok (substr S i (i + K)) := slice_ok (by omega) hi
  have hs2 : slice RC i (i + K) = .ok (substr RC i (i + K)) := slice_ok (by omega) (by omega)
  simp only [streamBody, hs1, hs2, exitWith, List.foldlM_cons, List.foldlM_nil, bind,
    Except.bind]
  cases outputKmer K w (↑i) (substr S i (i + K)) g with
  | error x => rfl
  | ok g1 =>
    simp only
    cases outputKmer K w (-↑i) (substr RC i (i + K)) g1 <;> rfl

/-- The second loop is the left-to-right handling of the candidate list. -/
theorem streamFold_eq (K : Nat) (w : Writer) (S RC : List Char)
    (hrc : RC.length = S.length) (n : Nat) (hn : n ≤ S.length + 1 - K) (g : Globals) :
    (List.range n).foldlM (streamBody K w S RC) g =
      (candidatesUpTo K S RC n).foldlM (fun g c => outputKmer K w c.1 c.2 g) g := by
  induction n with
  | zero => rfl
  | succ n ih =>
    rw [List.range_succ, List.foldlM_append, candidatesUpTo_succ, List.foldlM_append,
      ih (by omega)]
    congr 1
    funext g1
    rw [← streamBody_eq K w S RC g1 n (by omega) hrc]
    simp only [List.foldlM_cons, List.foldlM_nil, bind, Except.bind]
    cases streamBody K w S RC g1 n <;> rfl


theorem substr_length {s : List Char} {i K : Nat} (h : i + K ≤ s.length) :
    (substr s i (i + K)).length = K := by
  simp only [substr, List.length_drop, List.length_take]
  omega

theorem mem_candidatesUpTo {K : Nat} {S RC : List Char} {n : Nat} {c : Int × List Char}
    (h : c ∈ candidatesUpTo K S RC n) :
    ∃ i, i < n ∧ (c = ((i : Int), substr S i (i + K)) ∨ c = (-(i : Int), substr RC i (i + K))) := by
  simp only [candidatesUpTo, List.mem_flatMap, List.mem_range, List.mem_cons,
    List.mem_singleton, List.not_mem_nil, or_false] at h
  obtain ⟨i, hi, hc⟩ := h
  exact ⟨i, hi, hc⟩

theorem bfUpTo_fwd_pos (K : Nat) (S RC : List Char) {n i : Nat} (hi : i < n) :
    0 < bfUpTo K S RC n (substr S i (i + K)) := by
  have : 0 < (List.range n).countP (fun j => substr S j (j + K) = substr S i (i + K)) :=
    List.countP_pos_iff.2 ⟨i, List.mem_range.2 hi, by simp⟩
  unfold bfUpTo
  omega

theorem bfUpTo_rc_pos (K : Nat) (S RC : List Char) {n i : Nat} (hi : i < n) :
    0 < bfUpTo K S RC n (substr RC i (i + K)) := by
  by_cases heq : substr RC i (i + K) = substr S i (i + K)
  · rw [heq]; exact bfUpTo_fwd_pos K S RC hi
  · have : 0 < (List.range n).countP (fun j => substr RC j (j + K) = substr RC i (i + K) ∧
        substr RC j (j + K) ≠ substr S j (j + K)) :=
      List.countP_pos_iff.2 ⟨i, List.mem_range.2 hi, by simp [heq]⟩
    unfold bfUpTo
    omega

theorem optCount_of_pos {c : Nat} (h : 0 < c) : optCount c = some c := by
  simp [optCount]; omega

/-- Every candidate of the second loop is a key of an index whose stored counts are the
brute-force counts, its stored count is `bf`, and it has `K` symbols. -/
theorem candidates_stored (K : Nat) (S RC : List Char) (hrc : RC.length = S.length)
    (g : Globals) (hst : ∀ Y, storedCount g Y = optCount (bf K S RC Y)) :
    ∀ c ∈ candidates K S RC, storedCount g c.2 = some (bf K S RC c.2) ∧ c.2.length = K := by
  intro c hc
  obtain ⟨i, hi, h | h⟩ := mem_candidatesUpTo hc
  · subst h
    exact ⟨by rw [hst]; exact optCount_of_pos (bfUpTo_fwd_pos K S RC hi),
      substr_length (by omega)⟩
  · subst h
    exact ⟨by rw [hst]; exact optCount_of_pos (bfUpTo_rc_pos K S RC hi),
      substr_length (by omega)⟩

theorem streamLoop_spec (K : Nat) (S RC : List Char)
    (hrc : RC.length = S.length) (g : Globals)
    (hst : ∀ Y, storedCount g Y = optCount (bf K S RC Y)) :
    streamLoop K Writer.working S RC g =
      .ok (afterCandidates true (bf K S RC) (candidates K S RC) g) := by
  unfold streamLoop
  rw [streamFold_eq K Writer.working S RC hrc _ (Nat.le_refl _) g]
  exact outputKmer_fold K (bf K S RC) (candidates K S RC) g
    (candidates_stored K S RC hrc g hst)

theorem rcOf_length (S : List Char) : (rcOf S).length = S.length := by simp [rcOf]

/-- The whole run, with `-output`, on a valid sequence: it ends normally; the index it builds
is well formed and stores exactly the brute-force counts; the second loop leaves the index
alone and handles the candidates in order. -/
theorem main_spec (K : Nat) (S : List Char) (hS : Valid S) :
    ∃ g, revcomp S = .ok (rcOf S) ∧ countLoop K S (rcOf S) Globals.init = .ok g ∧ WF g ∧
      (∀ Y, storedCount g Y = optCount (bf K S (rcOf S) Y)) ∧
      g.unique = 0 ∧ g.linesPrinted = 0 ∧ g.written = [] ∧
      main K true S =
        .ok (afterCandidates true (bf K S (rcOf S)) (candidates K S (rcOf S)) g) := by
  have hrev : revcomp S = .ok (rcOf S) := revcomp_of_valid hS
  obtain ⟨g, hcount, hwf, hst, hu, hl, hw⟩ :=
    countLoop_spec K S (rcOf S) (rcOf_length S) Globals.init
  refine ⟨g, hrev, hcount, hwf, hst, hu, hl, hw, ?_⟩
  simp only [main, hrev, exitWith, hcount]
  exact streamLoop_spec K S (rcOf S) (rcOf_length S) g hst


theorem optCount_eq_one (c : Nat) : optCount c = some 1 ↔ c = 1 := by
  unfold optCount
  split_ifs with h
  · simp [h]
  · simp

theorem expectedOutput_upTo (K : Nat) (S RC : List Char) (cnt : List Char → Nat) (n : Nat) :
    ((candidatesUpTo K S RC n).filter
        (fun c => cnt c.2 = 1 ∧ true = true ∧ acgtPure c.2 = true)).flatMap
        (fun c => recordLine c.1 c.2) =
      (List.range n).flatMap fun i =>
        (if optCount (cnt (substr S i (i + K))) = some 1 ∧ acgtPure (substr S i (i + K)) = true
          then recordLine (i : Int) (substr S i (i + K)) else []) ++
        (if optCount (cnt (substr RC i (i + K))) = some 1 ∧
            acgtPure (substr RC i (i + K)) = true
          then recordLine (-(i : Int)) (substr RC i (i + K)) else []) := by
  induction n with
  | zero => rfl
  | succ n ih =>
    rw [candidatesUpTo_succ, List.range_succ, List.filter_append, List.flatMap_append,
      List.flatMap_append, ih]
    congr 1
    simp only [optCount_eq_one, List.flatMap_cons, List.flatMap_nil, List.append_nil]
    by_cases h1 : cnt (substr S n (n + K)) = 1 ∧ acgtPure (substr S n (n + K)) = true <;>
    by_cases h2 : cnt (substr RC n (n + K)) = 1 ∧ acgtPure (substr RC n (n + K)) = true <;>
    simp [List.filter_cons, h1, h2]

theorem substr_rcOf (S : List Char) (i K : Nat) (h : i + K ≤ S.length) :
    substr (rcOf S) i (i + K) = rcOf (substr S (S.length - K - i) (S.length - i)) := by
  unfold substr rcOf
  rw [List.take_reverse, List.drop_reverse, List.map_drop, List.map_take]
  congr 1
  simp only [List.length_drop, List.length_map]
  have e1 : S.length - (S.length - (i + K)) - i = K := by omega
  have e2 : S.length - (i + K) = S.length - K - i := by omega
  rw [e1, e2, List.take_drop]
  congr 2
  omega

theorem valid_substr {S : List Char} (hS : Valid S) (lo hi : Nat) : Valid (substr S lo hi) :=
  fun c hc => hS c (List.mem_of_mem_take (List.mem_of_mem_drop hc))

theorem valid_rcOf {S : List Char} (hS : Valid S) : Valid (rcOf S) := by
  intro c hc
  simp only [rcOf, List.mem_reverse, List.mem_map] at hc
  obtain ⟨d, hd, rfl⟩ := hc
  exact recognized_compl (hS d hd)

theorem rcOf_rcOf {S : List Char} (hS : Valid S) : rcOf (rcOf S) = S := by
  simp only [rcOf, List.map_reverse, List.reverse_reverse, List.map_map]
  calc List.map (compl ∘ compl) S = List.map id S :=
        List.map_congr_left (fun c hc => compl_compl (hS c hc))
    _ = S := List.map_id S

/-! ## Keys of the index -/

theorem mapGet_of_mem_keys {m : KmerMap} {X : List Char} (h : X ∈ m.map Prod.fst) :
    ∃ v, mapGet m X = some v := by
  induction m with
  | nil => simp at h
  | cons p rest ih =>
    obtain ⟨k', v'⟩ := p
    by_cases hk : k' = X
    · exact ⟨v', by simp [mapGet, hk]⟩
    · simp only [List.map_cons, List.mem_cons] at h
      rcases h with h | h
      · exact absurd h.symm hk
      · obtain ⟨v, hv⟩ := ih h
        exact ⟨v, by simp [mapGet, hk, hv]⟩

theorem mem_keys_of_mapGet {m : KmerMap} {X : List Char} {v : Nat} (h : mapGet m X = some v) :
    X ∈ m.map Prod.fst :=
  List.mem_map.2 ⟨(X, v), mapGet_mem h, rfl⟩

theorem WF.stored_of_get {g : Globals} (hg : WF g) {X : List Char} {idx : Nat}
    (h : mapGet g.kmerToIndex X = some idx) :
    ∃ c, g.kmerCounts[idx]? = some c ∧ storedCount g X = some c := by
  have hlt := hg.lt h
  exact ⟨g.kmerCounts[idx], List.getElem?_eq_getElem hlt,
    by rw [storedCount_of_get h, List.getElem?_eq_getElem hlt]⟩

theorem optCount_eq_some {c d : Nat} (h : optCount c = some d) : c = d ∧ 0 < d := by
  unfold optCount at h
  split_ifs at h with h0
  simp only [Option.some.injEq] at h
  omega

theorem optCount_getD (c : Nat) : (optCount c).getD 0 = c := by
  unfold optCount
  split_ifs with h0 <;> simp [h0]

theorem bfUpTo_pos_iff (K : Nat) (S RC : List Char) (n : Nat) (X : List Char) :
    0 < bfUpTo K S RC n X ↔ ∃ i, i < n ∧ (substr S i (i + K) = X ∨ substr RC i (i + K) = X) := by
  constructor
  · intro h
    by_contra hne
    simp only [not_exists, not_and, not_or] at hne
    have h1 : (List.range n).countP (fun i => substr S i (i + K) = X) = 0 := by
      rw [List.countP_eq_zero]
      intro i hi
      simpa using (hne i (List.mem_range.1 hi)).1
    have h2 : (List.range n).countP
        (fun i => substr RC i (i + K) = X ∧ substr RC i (i + K) ≠ substr S i (i + K)) = 0 := by
      rw [List.countP_eq_zero]
      intro i hi
      have := (hne i (List.mem_range.1 hi)).2
      simp [this]
    unfold bfUpTo at h
    omega
  · rintro ⟨i, hi, h | h⟩
    · rw [← h]; exact bfUpTo_fwd_pos K S RC hi
    · rw [← h]; exact bfUpTo_rc_pos K S RC hi

/-- In a well-formed index whose stored counts are given by `f`, the keys are the k-mers
with a positive count. -/
theorem mem_keys_iff {g : Globals} (hg : WF g) {f : List Char → Nat}
    (hst : ∀ Y, storedCount g Y = optCount (f Y)) (X : List Char) :
    X ∈ g.kmerToIndex.map Prod.fst ↔ 0 < f X := by
  constructor
  · intro h
    obtain ⟨idx, hidx⟩ := mapGet_of_mem_keys h
    obtain ⟨c, _, hc⟩ := hg.stored_of_get hidx
    rw [hst] at hc
    have := optCount_eq_some hc
    omega
  · intro h
    have hs : storedCount g X = some (f X) := by rw [hst]; exact optCount_of_pos h
    obtain ⟨idx, hidx⟩ := mapGet_isSome_of_storedCount hs
    exact mem_keys_of_mapGet hidx

theorem mapGet_of_mem_nodup {m : KmerMap} (hn : (m.map Prod.fst).Nodup) {k : List Char}
    {v : Nat} (h : (k, v) ∈ m) : mapGet m k = some v := by
  induction m with
  | nil => simp at h
  | cons p rest ih =>
    obtain ⟨k', v'⟩ := p
    simp only [List.map_cons, List.nodup_cons] at hn
    rcases List.mem_cons.1 h with h | h
    · simp only [Prod.mk.injEq] at h
      simp [mapGet, h.1, h.2]
    · have hk : k' ≠ k := by
        intro e
        subst e
        exact hn.1 (List.mem_map.2 ⟨(k', v), h, rfl⟩)
      simp [mapGet, hk, ih hn.2 h]

theorem mapGet_mapSet_self (m : KmerMap) (k : List Char) (v : Nat) :
    mapGet (mapSet m k v) k = some v := by
  induction m with
  | nil => simp [mapSet, mapGet]
  | cons p rest ih =>
    obtain ⟨k', v'⟩ := p
    by_cases hk : k' = k
    · simp [mapSet, mapGet, hk]
    · simp [mapSet, mapGet, hk, ih]

/-- After the lookup-or-insert of a k-mer, that k-mer is a key. -/
theorem lookupOrInsert_present (g : Globals) (X : List Char) :
    mapGet (lookupOrInsert g X).2.kmerToIndex X = some (lookupOrInsert g X).1 := by
  cases hX : mapGet g.kmerToIndex X with
  | some idx => simp [lookupOrInsert, hX]
  | none => simp [lookupOrInsert, hX, mapGet_mapSet_self]

/-- In a well-formed index every position of `kmerCounts` is the value of some key. -/
theorem WF.surj {g : Globals} (hg : WF g) {idx : Nat} (h : idx < g.kmerCounts.length) :
    ∃ X, mapGet g.kmerToIndex X = some idx := by
  have hm : idx ∈ g.kmerToIndex.map Prod.snd := by rw [hg.vals]; exact List.mem_range.2 h
  obtain ⟨⟨k, v⟩, hp, hv⟩ := List.mem_map.1 hm
  simp only at hv
  subst hv
  exact ⟨k, mapGet_of_mem_nodup hg.keys hp⟩

/-- In a well-formed index whose stored counts are given by `f`, no stored count is 0. -/
theorem counts_pos {g : Globals} (hg : WF g) {f : List Char → Nat}
    (hst : ∀ Y, storedCount g Y = optCount (f Y)) : ∀ c ∈ g.kmerCounts, 1 ≤ c := by
  intro c hc
  obtain ⟨idx, hlt, hget⟩ := List.getElem_of_mem hc
  obtain ⟨X, hX⟩ := hg.surj hlt
  obtain ⟨c', hc', hs⟩ := hg.stored_of_get hX
  rw [List.getElem?_eq_getElem hlt, hget] at hc'
  simp only [Option.some.injEq] at hc'
  subst hc'
  rw [hst] at hs
  exact (optCount_eq_some hs).2

theorem candidatesUpTo_length (K : Nat) (S RC : List Char) (n : Nat) :
    (candidatesUpTo K S RC n).length = 2 * n := by
  induction n with
  | zero => rfl
  | succ n ih =>
    rw [candidatesUpTo_succ, List.length_append, ih]
    simp only [List.length_cons, List.length_nil]
    omega

theorem mem_candidatesUpTo_snd {K : Nat} {S RC : List Char} {n i : Nat} (hi : i < n)
    {X : List Char} (h : substr S i (i + K) = X ∨ substr RC i (i + K) = X) :
    X ∈ (candidatesUpTo K S RC n).map Prod.snd := by
  simp only [candidatesUpTo, List.mem_map, List.mem_flatMap, List.mem_range, List.mem_cons,
    List.mem_singleton, List.not_mem_nil, or_false]
  rcases h with h | h
  · exact ⟨((i : Int), X), ⟨i, hi, Or.inl (by rw [h])⟩, rfl⟩
  · exact ⟨(-(i : Int), X), ⟨i, hi, Or.inr (by rw [h])⟩, rfl⟩

/-- The index has at most two keys per offset. -/
theorem keys_length_le {g : Globals} (hg : WF g) (K : Nat) (S RC : List Char) (n : Nat)
    (hst : ∀ Y, storedCount g Y = optCount (bfUpTo K S RC n Y)) :
    g.kmerCounts.length ≤ 2 * n := by
  have hsub : g.kmerToIndex.map Prod.fst ⊆ (candidatesUpTo K S RC n).map Prod.snd := by
    intro X hX
    have hpos := (mem_keys_iff hg hst X).1 hX
    obtain ⟨i, hi, h⟩ := (bfUpTo_pos_iff K S RC n X).1 hpos
    exact mem_candidatesUpTo_snd hi h
  have := (hg.keys.subperm hsub).length_le
  simp only [List.length_map, candidatesUpTo_length] at this
  rw [← hg.len]
  exact this

/-! ## Sums of counts -/

theorem sum_indicator_of_mem_nodup {keys : List (List Char)} (hk : keys.Nodup)
    {a : List Char} (ha : a ∈ keys) :
    (keys.map (fun X => if a = X then 1 else 0)).sum = 1 := by
  rw [← List.sum_toFinset _ hk, Finset.sum_ite_eq]
  simp [ha]

/-- Double counting: when every selected index has its image among the distinct `keys`,
adding up over the keys the number of selected indices mapped to each key gives the number
of selected indices. -/
theorem sum_countP_keys {keys : List (List Char)} (hk : keys.Nodup) (l : List Nat)
    (f : Nat → List Char) (q : Nat → Bool) (hf : ∀ i ∈ l, q i = true → f i ∈ keys) :
    (keys.map (fun X => l.countP (fun i => decide (f i = X) && q i))).sum = l.countP q := by
  induction l with
  | nil => simp
  | cons a t ih =>
    have ih' := ih (fun i hi => hf i (List.mem_cons_of_mem _ hi))
    simp only [List.countP_cons]
    rw [List.sum_map_add, ih']
    congr 1
    cases hq : q a with
    | false => simp
    | true =>
      simp only [Bool.and_true, decide_eq_true_eq, if_true]
      exact sum_indicator_of_mem_nodup hk (hf a (List.mem_cons_self _ _) hq)

theorem indexSum_eq {g : Globals} {f : List Char → Nat}
    (hst : ∀ Y, storedCount g Y = optCount (f Y)) :
    indexSum g = ((g.kmerToIndex.map Prod.fst).map f).sum := by
  simp [indexSum, hst, optCount_getD, List.map_map, Function.comp_def]

/-- The counts of the index add up to one per offset for the forward extract plus one per
offset where the reverse extract differs from it. -/
theorem indexSum_upTo {g : Globals} (hg : WF g) (K : Nat) (S RC : List Char) (n : Nat)
    (hst : ∀ Y, storedCount g Y = optCount (bfUpTo K S RC n Y)) :
    indexSum g + (List.range n).countP (fun i => substr S i (i + K) = substr RC i (i + K)) =
      2 * n := by
  have hmem : ∀ i, i < n → ∀ X, (substr S i (i + K) = X ∨ substr RC i (i + K) = X) →
      X ∈ g.kmerToIndex.map Prod.fst := by
    intro i hi X h
    exact (mem_keys_iff hg hst X).2 ((bfUpTo_pos_iff K S RC n X).2 ⟨i, hi, h⟩)
  have h1 := sum_countP_keys hg.keys (List.range n) (fun i => substr S i (i + K))
    (fun _ => true) (fun i hi _ => hmem i (List.mem_range.1 hi) _ (Or.inl rfl))
  have h2 := sum_countP_keys hg.keys (List.range n) (fun i => substr RC i (i + K))
    (fun i => decide (substr RC i (i + K) ≠ substr S i (i + K)))
    (fun i hi _ => hmem i (List.mem_range.1 hi) _ (Or.inr rfl))
  have hsplit : ((g.kmerToIndex.map Prod.fst).map (bfUpTo K S RC n)).sum =
      ((g.kmerToIndex.map Prod.fst).map (fun X =>
        (List.range n).countP (fun i => decide (substr S i (i + K) = X) && true))).sum +
      ((g.kmerToIndex.map Prod.fst).map (fun X =>
        (List.range n).countP (fun i => decide (substr RC i (i + K) = X) &&
          decide (substr RC i (i + K) ≠ substr S i (i + K))))).sum := by
    rw [← List.sum_map_add]
    congr 1
    apply List.map_congr_left
    intro X _
    simp [bfUpTo]
  rw [indexSum_eq hst, hsplit, h1, h2]
  have hlen := List.length_eq_countP_add_countP
    (fun i => decide (substr S i (i + K) = substr RC i (i + K))) (List.range n)
  have hall : (List.range n).countP (fun _ => true) = n := by simp
  have hneg : (List.range n).countP
      (fun i => decide (substr RC i (i + K) ≠ substr S i (i + K))) =
      (List.range n).countP
        (fun i => ¬ (decide (substr S i (i + K) = substr RC i (i + K)) = true)) := by
    apply List.countP_congr
    intro i _
    constructor <;> intro h <;> simp at h ⊢ <;> exact fun e => h e.symm
  rw [hall, hneg]
  simp only [List.length_range] at hlen
  omega

/-- In a well-formed index the sum over the keys is the sum of the slice `kmerCounts`. -/
theorem indexSum_eq_sum {g : Globals} (hg : WF g) : indexSum g = g.kmerCounts.sum := by
  unfold indexSum
  have h1 : g.kmerToIndex.map (fun p => (storedCount g p.1).getD 0) =
      g.kmerToIndex.map (fun p => (g.kmerCounts[p.2]?).getD 0) := by
    apply List.map_congr_left
    intro p hp
    rw [storedCount_of_get (mapGet_of_mem_nodup hg.keys hp)]
  have h2 : g.kmerToIndex.map (fun p => (g.kmerCounts[p.2]?).getD 0) =
      (g.kmerToIndex.map Prod.snd).map (fun i => (g.kmerCounts[i]?).getD 0) := by
    rw [List.map_map]; rfl
  have h3 : (List.range g.kmerCounts.length).map (fun i => (g.kmerCounts[i]?).getD 0) =
      g.kmerCounts := by
    apply List.ext_getElem
    · simp
    · intro i h1 h2
      simp [List.getElem?_eq_getElem h2]
  rw [h1, h2, hg.vals, h3]

/-! ## Strand symmetry of the counts -/

theorem bfUpTo_eq_either (K : Nat) (S RC : List Char) (n : Nat) (X : List Char) :
    bfUpTo K S RC n X =
      (List.range n).countP (fun i => substr S i (i + K) = X ∨ substr RC i (i + K) = X) := by
  induction n with
  | zero => simp [bfUpTo]
  | succ n ih =>
    rw [bfUpTo_succ, ih, List.range_succ, List.countP_append]
    simp only [List.countP_cons, List.countP_nil, Nat.zero_add, decide_eq_true_eq]
    by_cases h1 : substr S n (n + K) = X <;> by_cases h2 : substr RC n (n + K) = X
    · have : ¬ (substr RC n (n + K) ≠ substr S n (n + K)) := by rw [h1, h2]; simp
      simp [h1, h2]
    · simp [h1, h2]
    · have h1' : ¬ X = substr S n (n + K) := fun e => h1 e.symm
      simp [h1, h2, h1']
    · simp [h1, h2]

theorem rcOf_eq_iff {a b : List Char} (ha : Valid a) (hb : Valid b) :
    a = rcOf b ↔ rcOf a = b := by
  constructor
  · intro h; rw [h, rcOf_rcOf hb]
  · intro h; rw [← h, rcOf_rcOf ha]

/-- The brute-force count of a valid k-mer equals that of its reverse complement: the mirror
offset `L-K-i` exchanges the two strands. -/
theorem bf_rcOf (K : Nat) (S : List Char) (hS : Valid S) (X : List Char) (hX : Valid X) :
    bf K S (rcOf S) (rcOf X) = bf K S (rcOf S) X := by
  unfold bf
  rw [bfUpTo_eq_either, bfUpTo_eq_either]
  have hrev : (List.range (S.length + 1 - K)).reverse =
      List.map (fun i => S.length + 1 - K - 1 - i) (List.range (S.length + 1 - K)) := by
    have := List.reverse_range' 0 (S.length + 1 - K)
    rw [← List.range_eq_range'] at this
    simpa using this
  rw [← List.countP_reverse, hrev, List.countP_map]
  apply List.countP_congr
  intro i hi
  have hi' : i < S.length + 1 - K := List.mem_range.1 hi
  have hm : S.length + 1 - K - 1 - i + K ≤ S.length := by omega
  have e1 : substr (rcOf S) (S.length + 1 - K - 1 - i) (S.length + 1 - K - 1 - i + K) =
      rcOf (substr S i (i + K)) := by
    rw [substr_rcOf S _ K hm]
    congr 2 <;> omega
  have e2 : substr (rcOf S) i (i + K) =
      rcOf (substr S (S.length + 1 - K - 1 - i) (S.length + 1 - K - 1 - i + K)) := by
    rw [substr_rcOf S i K (by omega)]
    congr 2 <;> omega
  simp only [Function.comp, decide_eq_true_eq, e1, e2]
  have hinj : rcOf (substr S i (i + K)) = rcOf X ↔ substr S i (i + K) = X := by
    constructor
    · intro h
      have := congrArg rcOf h
      rwa [rcOf_rcOf (valid_substr hS _ _), rcOf_rcOf hX] at this
    · intro h; rw [h]
  rw [rcOf_eq_iff (valid_substr hS _ _) hX, hinj]
  exact or_comm

/-! ## Size of the index -/

/-- Distinct strings of length `K` over an alphabet are at most `|alphabet| ^ K`. -/
theorem nodup_length_le_pow (A : List Char) (K : Nat) (keys : List (List Char))
    (hn : keys.Nodup) (h : ∀ X ∈ keys, X.length = K ∧ ∀ c ∈ X, c ∈ A) :
    keys.length ≤ A.toFinset.card ^ K := by
  rw [← List.toFinset_card_of_nodup hn]
  have hle := Finset.card_le_card_of_injOn
    (s := keys.toFinset) (t := Fintype.piFinset (fun _ : Fin K => A.toFinset))
    (fun X => fun j : Fin K => X.getD j.val 'A')
    (by
      intro X hX
      rw [List.mem_toFinset] at hX
      obtain ⟨hlen, hmem⟩ := h X hX
      rw [Fintype.mem_piFinset]
      intro j
      have hj : j.val < X.length := by rw [hlen]; exact j.isLt
      show X.getD j.val 'A' ∈ A.toFinset
      rw [List.getD_eq_getElem _ _ hj, List.mem_toFinset]
      exact hmem _ (List.getElem_mem hj))
    (by
      intro X hX Y hY hXY
      rw [Finset.mem_coe, List.mem_toFinset] at hX hY
      have hlx := (h X hX).1
      have hly := (h Y hY).1
      apply List.ext_getElem (by rw [hlx, hly])
      intro n h1 h2
      have : X.getD n 'A' = Y.getD n 'A' := congrFun hXY ⟨n, by rw [← hlx]; exact h1⟩
      rwa [List.getD_eq_getElem _ _ h1, List.getD_eq_getElem _ _ h2] at this)
  rw [Fintype.card_piFinset, Finset.prod_const, Finset.card_univ, Fintype.card_fin] at hle
  exact hle

theorem mem_rcOf {S : List Char} {c : Char} (h : c ∈ rcOf S) : ∃ d, d ∈ S ∧ compl d = c := by
  simp only [rcOf, List.mem_reverse, List.mem_map] at h
  exact h

theorem mem_substr {s : List Char} {lo hi : Nat} {c : Char} (h : c ∈ substr s lo hi) :
    c ∈ s :=
  List.mem_of_mem_take (List.mem_of_mem_drop h)

/-- The index of a sequence over an alphabet closed under complement has at most
`min (|alphabet| ^ K) (2 * (L - K + 1))` entries. -/
theorem index_size_le (A : List Char) (hAc : ∀ c ∈ A, compl c ∈ A) (K : Nat)
    (S : List Char) (hA : ∀ c ∈ S, c ∈ A) (hL : K ≤ S.length) {g : Globals} (hg : WF g)
    (hst : ∀ Y, storedCount g Y = optCount (bf K S (rcOf S) Y)) :
    g.kmerCounts.length ≤ min (A.toFinset.card ^ K) (2 * (S.length - K + 1)) := by
  have h2 : g.kmerCounts.length ≤ 2 * (S.length + 1 - K) :=
    keys_length_le hg K S (rcOf S) _ hst
  have h1 : (g.kmerToIndex.map Prod.fst).length ≤ A.toFinset.card ^ K := by
    apply nodup_length_le_pow A K _ hg.keys
    intro X hX
    have hpos := (mem_keys_iff hg hst X).1 hX
    obtain ⟨i, hi, h⟩ := (bfUpTo_pos_iff K S (rcOf S) _ X).1 hpos
    rcases h with h | h
    · subst h
      exact ⟨substr_length (by omega), fun c hc => hA c (mem_substr hc)⟩
    · subst h
      refine ⟨substr_length (by rw [rcOf_length]; omega), fun c hc => ?_⟩
      obtain ⟨d, hd, rfl⟩ := mem_rcOf (mem_substr hc)
      exact hAc d (hA d hd)
  rw [List.length_map, hg.len] at h1
  have e : 2 * (S.length + 1 - K) = 2 * (S.length - K + 1) := by omega
  rw [e] at h2
  exact Nat.le_min.2 ⟨h1, h2⟩

/-- Handling a list of candidates that are keys of the index, with any writer, never ends
with an out-of-range panic. -/
theorem outputKmer_fold_safe (K : Nat) (w : Writer) (cnt : List Char → Nat)
    (cs : List (Int × List Char)) (g : Globals)
    (hcs : ∀ c ∈ cs, storedCount g c.2 = some (cnt c.2) ∧ c.2.length = K) (x : Globals) :
    cs.foldlM (fun g c => outputKmer K w c.1 c.2 g) g ≠ .error ⟨.outOfRange, x⟩ := by
  induction cs generalizing g with
  | nil => simp [pure, Except.pure]
  | cons c t ih =>
    have hc := hcs c (List.mem_cons_self _ _)
    rw [List.foldlM_cons, outputKmer_spec K w c.1 c.2 g (cnt c.2) hc.1 hc.2]
    split_ifs with hcond
    · simp [bind, Except.bind]
    · simp only [bind, Except.bind]
      exact ih _ (fun d hd => by
        rw [storedCount_afterCandidate]
        exact hcs d (List.mem_cons_of_mem _ hd))

/-! ## The claims -/

/-- Claim C1 (index invariant), evaluated where the code departs from it.  For the sequence
`AT` and `K = 1` the k-mer `A` is extracted by two (strand, offset) pairs, forward offset 0
and reverse offset 0, and `A` is not its own reverse complement, so the invariant asks for
the count 2; the index built by the counting loop stores 1, and so does the index at the end
of the run with `-output`. -/
theorem C1_count_below_pairs :
    revcomp ['A', 'T'] = .ok ['A', 'T'] ∧
    strandOffsetPairs 1 ['A', 'T'] ['A', 'T'] ['A'] = 2 ∧
    ¬ selfComplementary ['A'] ∧
    (countLoop 1 ['A', 'T'] ['A', 'T'] Globals.init).map (fun g => storedCount g ['A']) =
      .ok (some 1) ∧
    (main 1 true ['A', 'T']).map (fun g => storedCount g ['A']) = .ok (some 1) := by
  decide

/-- Claim C2 (dedup correctness), evaluated where the code departs from it.  In `ATG` with
`K = 2` the k-mer `AT` is its own reverse complement and occurs on the forward strand at
offset 0 only, yet the index built by the counting loop stores the count 2 for it, and so
does the index at the end of the run with `-output`. -/
theorem C2_selfcomplementary_counted_twice :
    selfComplementary ['A', 'T'] ∧
    forwardOffsets 2 ['A', 'T', 'G'] ['A', 'T'] = [0] ∧
    revcomp ['A', 'T', 'G'] = .ok ['C', 'A', 'T'] ∧
    (countLoop 2 ['A', 'T', 'G'] ['C', 'A', 'T'] Globals.init).map
      (fun g => storedCount g ['A', 'T']) = .ok (some 2) ∧
    (main 2 true ['A', 'T', 'G']).map (fun g => storedCount g ['A', 'T']) = .ok (some 2) := by
  decide

/-- Claim C3 (uniqueness agreement), with the run where the code departs from it.  For a
valid sequence and `K > 0` the index built by the counting loop stores for every `X` exactly
the brute-force count `bf X` (no entry when it is 0); every candidate of the second loop,
handled with any writer in any state that carries this index, moves the unique counter iff
its brute-force count is 1, whether `outputKmer` then returns or panics on the nil writer;
and the run with `-output` ends normally with the unique counter equal to the number of
candidates whose brute-force count is 1.  The run without `-output` does not reach that
value: on `AT` with `K = 1`, where 4 candidates have brute-force count 1, it panics on the
nil writer at the first candidate, with the unique counter at 1. -/
theorem C3_uniqueness_agreement (K : Nat) (S : List Char) (_hK : 0 < K) (hS : Valid S) :
    ∃ RC g, revcomp S = .ok RC ∧ countLoop K S RC Globals.init = .ok g ∧
      (∀ X, storedCount g X = optCount (bf K S RC X)) ∧
      (∀ c ∈ candidates K S RC, ∀ (w : Writer) (h : Globals),
        h.kmerToIndex = g.kmerToIndex → h.kmerCounts = g.kmerCounts →
        ∃ h', h'.unique = h.unique + (if bf K S RC c.2 = 1 then 1 else 0) ∧
          (outputKmer K w c.1 c.2 h = .ok h' ∨
            (w = Writer.nilPointer ∧
              outputKmer K w c.1 c.2 h = .error ⟨.nilDereference, h'⟩))) ∧
      (∃ gfin, main K true S = .ok gfin ∧
        gfin.unique = (candidates K S RC).countP (fun c => bf K S RC c.2 = 1)) ∧
      ((candidates 1 ['A', 'T'] ['A', 'T']).countP
          (fun c => bf 1 ['A', 'T'] ['A', 'T'] c.2 = 1) = 4 ∧
        main 1 false ['A', 'T'] =
          .error ⟨.nilDereference,
            { kmerToIndex := [(['A'], 0), (['T'], 1)], kmerCounts := [1, 1], unique := 1,
              linesPrinted := 0, written := [] }⟩) := by
  obtain ⟨g, hrev, hcount, _, hst, hu, _, _, hmain⟩ := main_spec K S hS
  refine ⟨rcOf S, g, hrev, hcount, hst, ?_, ⟨_, hmain, ?_⟩, by decide⟩
  · intro c hc w h hm hk
    have hsame : ∀ Y, storedCount h Y = storedCount g Y := by
      intro Y; simp [storedCount, hm, hk]
    have hcs := candidates_stored K S (rcOf S) (rcOf_length S) g hst c hc
    have hspec := outputKmer_spec K w c.1 c.2 h (bf K S (rcOf S) c.2)
      (by rw [hsame]; exact hcs.1) hcs.2
    by_cases hcond : bf K S (rcOf S) c.2 = 1 ∧ w = Writer.nilPointer ∧ acgtPure c.2 = true
    · rw [if_pos hcond] at hspec
      exact ⟨{ h with unique := h.unique + 1 }, by simp [hcond.1],
        Or.inr ⟨hcond.2.1, hspec⟩⟩
    · rw [if_neg hcond] at hspec
      exact ⟨_, rfl, Or.inl hspec⟩
  · simp [afterCandidates, hu]

/-- Witness for C3 at the sequence `ATGCANT` with `K = 3`. -/
theorem C3_uniqueness_agreement_witness :
    0 < 3 ∧ Valid ['A', 'T', 'G', 'C', 'A', 'N', 'T'] ∧
    ∃ RC g, revcomp ['A', 'T', 'G', 'C', 'A', 'N', 'T'] = .ok RC ∧
      countLoop 3 ['A', 'T', 'G', 'C', 'A', 'N', 'T'] RC Globals.init = .ok g ∧
      (∀ X, storedCount g X = optCount (bf 3 ['A', 'T', 'G', 'C', 'A', 'N', 'T'] RC X)) ∧
      (∀ c ∈ candidates 3 ['A', 'T', 'G', 'C', 'A', 'N', 'T'] RC, ∀ (w : Writer) (h : Globals),
        h.kmerToIndex = g.kmerToIndex → h.kmerCounts = g.kmerCounts →
        ∃ h', h'.unique = h.unique +
            (if bf 3 ['A', 'T', 'G', 'C', 'A', 'N', 'T'] RC c.2 = 1 then 1 else 0) ∧
          (outputKmer 3 w c.1 c.2 h = .ok h' ∨
            (w = Writer.nilPointer ∧
              outputKmer 3 w c.1 c.2 h = .error ⟨.nilDereference, h'⟩))) ∧
      (∃ gfin, main 3 true ['A', 'T', 'G', 'C', 'A', 'N', 'T'] = .ok gfin ∧
        gfin.unique = (candidates 3 ['A', 'T', 'G', 'C', 'A', 'N', 'T'] RC).countP
          (fun c => bf 3 ['A', 'T', 'G', 'C', 'A', 'N', 'T'] RC c.2 = 1)) ∧
      ((candidates 1 ['A', 'T'] ['A', 'T']).countP
          (fun c => bf 1 ['A', 'T'] ['A', 'T'] c.2 = 1) = 4 ∧
        main 1 false ['A', 'T'] =
          .error ⟨.nilDereference,
            { kmerToIndex := [(['A'], 0), (['T'], 1)], kmerCounts := [1, 1], unique := 1,
              linesPrinted := 0, written := [] }⟩) :=
  ⟨by decide, by decide,
    C3_uniqueness_agreement 3 ['A', 'T', 'G', 'C', 'A', 'N', 'T'] (by decide) (by decide)⟩

/-- Claim C4 (count conservation), evaluated where the code departs from it.  For `ATG` with
`K = 2` one forward k-mer (`AT`) is self-complementary, so the claimed sum is
`2*(3-2+1) - 1 = 3`, while the counts of the index built by the counting loop add up to 4;
for `AT` with `K = 1` no k-mer is self-complementary, the claimed sum is 4 and the counts add
up to 2.  The index at the end of the run with `-output` gives the same sums. -/
theorem C4_sum_differs :
    selfComplementaryOccurrences 2 ['A', 'T', 'G'] = 1 ∧
    revcomp ['A', 'T', 'G'] = .ok ['C', 'A', 'T'] ∧
    (countLoop 2 ['A', 'T', 'G'] ['C', 'A', 'T'] Globals.init).map indexSum = .ok 4 ∧
    (main 2 true ['A', 'T', 'G']).map indexSum = .ok 4 ∧
    selfComplementaryOccurrences 1 ['A', 'T'] = 0 ∧
    revcomp ['A', 'T'] = .ok ['A', 'T'] ∧
    (countLoop 1 ['A', 'T'] ['A', 'T'] Globals.init).map indexSum = .ok 2 ∧
    (main 1 true ['A', 'T']).map indexSum = .ok 2 := by
  decide

/-- Claim C5 (complement involution).  For a valid sequence `S`, `revcomp S` succeeds, and
`revcomp` of the result succeeds and gives `S` back. -/
theorem C5_revcomp_involution (S : List Char) (hS : Valid S) :
    ∃ RC, revcomp S = .ok RC ∧ revcomp RC = .ok S := by
  refine ⟨rcOf S, revcomp_of_valid hS, ?_⟩
  have hv : Valid (rcOf S) := by
    intro c hc
    simp only [rcOf, List.mem_reverse, List.mem_map] at hc
    obtain ⟨d, hd, rfl⟩ := hc
    exact recognized_compl (hS d hd)
  rw [revcomp_of_valid hv]
  congr 1
  simp only [rcOf, List.map_reverse, List.reverse_reverse, List.map_map]
  calc List.map (compl ∘ compl) S = List.map id S :=
        List.map_congr_left (fun c hc => compl_compl (hS c hc))
    _ = S := List.map_id S

/-- Witness for C5 at the sequence `ACGTNacgt`. -/
theorem C5_revcomp_involution_witness :
    Valid ['A', 'C', 'G', 'T', 'N', 'a', 'c', 'g', 't'] ∧
    ∃ RC, revcomp ['A', 'C', 'G', 'T', 'N', 'a', 'c', 'g', 't'] = .ok RC ∧
      revcomp RC = .ok ['A', 'C', 'G', 'T', 'N', 'a', 'c', 'g', 't'] :=
  ⟨by decide, C5_revcomp_involution ['A', 'C', 'G', 'T', 'N', 'a', 'c', 'g', 't'] (by decide)⟩

/-- Claim C6 (shape of the reverse complement).  For a valid sequence `S` of length `L`,
`revcomp S` succeeds with a result of length `L` whose symbol at position `L-1-i` is
`complement (S[i])`, for every `i < L`. -/
theorem C6_revcomp_positions (S : List Char) (hS : Valid S) :
    ∃ RC, revcomp S = .ok RC ∧ RC.length = S.length ∧
      ∀ i (hi : i < S.length), ∃ d, complement S[i] = .ok d ∧ RC[S.length - 1 - i]? = some d := by
  refine ⟨rcOf S, revcomp_of_valid hS, rcOf_length S, ?_⟩
  intro i hi
  refine ⟨compl S[i], complement_of_recognized (hS _ (List.getElem_mem hi)), ?_⟩
  have h1 : S.length - 1 - i < (S.map compl).length := by simp; omega
  have h2 : (S.map compl).length - 1 - (S.length - 1 - i) = i := by simp; omega
  simp only [rcOf]
  rw [List.getElem?_eq_getElem (by simpa using h1), List.getElem_reverse]
  simp only [h2, List.getElem_map]

/-- Witness for C6 at the sequence `ACGTN`. -/
theorem C6_revcomp_positions_witness :
    Valid ['A', 'C', 'G', 'T', 'N'] ∧
    ∃ RC, revcomp ['A', 'C', 'G', 'T', 'N'] = .ok RC ∧
      RC.length = ['A', 'C', 'G', 'T', 'N'].length ∧
      ∀ i (hi : i < ['A', 'C', 'G', 'T', 'N'].length),
        ∃ d, complement ['A', 'C', 'G', 'T', 'N'][i] = .ok d ∧
          RC[['A', 'C', 'G', 'T', 'N'].length - 1 - i]? = some d :=
  ⟨by decide, C6_revcomp_positions ['A', 'C', 'G', 'T', 'N'] (by decide)⟩


/-- Counterexample to claim C7 as stated: on the symbol `n`, which the claim maps to `n`,
`complement` does not succeed; it ends the process with the invalid-base error. -/
theorem C7_lowercase_n_rejected :
    'n' ∈ ['A', 'T', 'G', 'C', 'N', 'a', 't', 'g', 'c', 'n'] ∧
    complement 'n' ≠ .ok 'n' ∧ complement 'n' = .error (.invalidBase 'n') := by
  decide

/-- Claim C7 as amended (complement table).  On each of the nine symbols A, T, G, C, N, a, t,
g, c `complement` succeeds and returns the Watson-Crick complement in the same case:
A and T are exchanged, G and C are exchanged, N is kept, and likewise a and t, g and c. -/
theorem C7_complement_table :
    complement 'A' = .ok 'T' ∧ complement 'T' = .ok 'A' ∧ complement 'G' = .ok 'C' ∧
    complement 'C' = .ok 'G' ∧ complement 'N' = .ok 'N' ∧ complement 'a' = .ok 't' ∧
    complement 't' = .ok 'a' ∧ complement 'g' = .ok 'c' ∧ complement 'c' = .ok 'g' := by
  decide

/-- Claim C8 (invalid symbol).  If a sequence `S` contains a symbol `r` outside
{A,T,G,C,N,a,t,g,c,n}, then `complement r` ends the process with the invalid-base error, and
so do `revcomp S` and the whole run, at an unrecognized symbol of `S`; the run ends in the
initial state: empty index, zero counters, nothing written. -/
theorem C8_invalid_symbol (K : Nat) (hasOutput : Bool) (S : List Char) (r : Char) (hr : r ∈ S)
    (hbad : r ∉ ['A', 'T', 'G', 'C', 'N', 'a', 't', 'g', 'c', 'n']) :
    complement r = .error (.invalidBase r) ∧
    ∃ r', r' ∈ S ∧ recognized r' = false ∧ revcomp S = .error (.invalidBase r') ∧
      main K hasOutput S = .error ⟨.invalidBase r', Globals.init⟩ := by
  have hnr : recognized r ≠ true := by
    intro h
    rw [recognized_iff] at h
    apply hbad
    simp only [List.mem_cons, List.mem_singleton, List.not_mem_nil, or_false] at h ⊢
    tauto
  refine ⟨complement_of_not_recognized hnr, ?_⟩
  rcases valid_or_split S with hv | ⟨p, r', q, he, hp, hr'⟩
  · exact absurd (hv r hr) hnr
  · have hrev : revcomp S = .error (.invalidBase r') := by
      rw [he]; exact revcomp_of_invalid p q r' hp hr'
    refine ⟨r', by simp [he], by simpa using hr', hrev, ?_⟩
    simp only [main, hrev, exitWith]

/-- Witness for C8 at the sequence `ATXG`. -/
theorem C8_invalid_symbol_witness :
    'X' ∈ ['A', 'T', 'X', 'G'] ∧ 'X' ∉ ['A', 'T', 'G', 'C', 'N', 'a', 't', 'g', 'c', 'n'] ∧
    (complement 'X' = .error (.invalidBase 'X') ∧
      ∃ r', r' ∈ ['A', 'T', 'X', 'G'] ∧ recognized r' = false ∧
        revcomp ['A', 'T', 'X', 'G'] = .error (.invalidBase r') ∧
        main 2 true ['A', 'T', 'X', 'G'] = .error ⟨.invalidBase r', Globals.init⟩) :=
  ⟨by decide, by decide, C8_invalid_symbol 2 true ['A', 'T', 'X', 'G'] 'X' (by decide) (by decide)⟩

/-- Claim C9 (alphabet filter).  With a sink present, for a candidate of `K` symbols that is
a key of the index with stored count `c`, `outputKmer` returns normally, leaves the index
alone, adds one to the unique counter iff `c = 1`, and writes the candidate's line and adds
one to the lines counter iff `c = 1` and every symbol is one of A, T, G, C; in particular a
candidate with count 1 that contains `N` is counted as unique and writes nothing. -/
theorem C9_alphabet_filter (K : Nat) (coord : Int) (kmer : List Char) (g : Globals) (c : Nat)
    (hc : storedCount g kmer = some c) (hlen : kmer.length = K) :
    ∃ g', outputKmer K Writer.working coord kmer g = .ok g' ∧
      g'.kmerToIndex = g.kmerToIndex ∧ g'.kmerCounts = g.kmerCounts ∧
      g'.unique = g.unique + (if c = 1 then 1 else 0) ∧
      g'.linesPrinted = g.linesPrinted + (if c = 1 ∧ acgtPure kmer = true then 1 else 0) ∧
      g'.written = g.written ++
        (if c = 1 ∧ acgtPure kmer = true then recordLine coord kmer else []) ∧
      (c = 1 → 'N' ∈ kmer →
        g'.unique = g.unique + 1 ∧ g'.linesPrinted = g.linesPrinted ∧
          g'.written = g.written) := by
  refine ⟨_, outputKmer_working K coord kmer g c hc hlen, rfl, rfl, rfl, ?_, ?_, ?_⟩
  · simp [afterCandidate]
  · simp [afterCandidate]
  · intro h1 hN
    have hp : acgtPure kmer = false := by
      simp only [acgtPure, List.all_eq_false]
      exact ⟨'N', hN, by decide⟩
    simp [afterCandidate, h1, hp]

/-- Witness for C9: the candidate `(-4, CAN)` in the index built from `ATGCANT`, `K = 3`. -/
theorem C9_alphabet_filter_witness :
    storedCount
        { kmerToIndex := [(['A', 'T', 'G'], 0), (['C', 'A', 'N'], 1)], kmerCounts := [2, 1],
          unique := 0, linesPrinted := 0, written := [] } ['C', 'A', 'N'] = some 1 ∧
    ['C', 'A', 'N'].length = 3 ∧
    ∃ g', outputKmer 3 Writer.working (-4) ['C', 'A', 'N']
        { kmerToIndex := [(['A', 'T', 'G'], 0), (['C', 'A', 'N'], 1)], kmerCounts := [2, 1],
          unique := 0, linesPrinted := 0, written := [] } = .ok g' ∧
      g'.kmerToIndex = [(['A', 'T', 'G'], 0), (['C', 'A', 'N'], 1)] ∧ g'.kmerCounts = [2, 1] ∧
      g'.unique = 0 + (if 1 = 1 then 1 else 0) ∧
      g'.linesPrinted = 0 + (if 1 = 1 ∧ acgtPure ['C', 'A', 'N'] = true then 1 else 0) ∧
      g'.written = [] ++
        (if 1 = 1 ∧ acgtPure ['C', 'A', 'N'] = true then recordLine (-4) ['C', 'A', 'N']
          else []) ∧
      (1 = 1 → 'N' ∈ ['C', 'A', 'N'] →
        g'.unique = 0 + 1 ∧ g'.linesPrinted = 0 ∧ g'.written = []) :=
  ⟨by decide, by decide,
    C9_alphabet_filter 3 (-4) ['C', 'A', 'N']
      { kmerToIndex := [(['A', 'T', 'G'], 0), (['C', 'A', 'N'], 1)], kmerCounts := [2, 1],
        unique := 0, linesPrinted := 0, written := [] } 1 (by decide) (by decide)⟩

/-- Claim C10 (output order and format).  For a valid sequence and `K > 0`, with a sink, the
run ends normally and the bytes written are exactly the expected output: for `i = 0 .. L-K`
in increasing order the forward candidate `(i, S[i:i+K])` then the reverse candidate
`(-i, RC[i:i+K])`, each kept only if it is unique, that is its count in the index built by the
counting loop is 1, equivalently its brute-force count is 1, and it is ACGT-pure, each as the
decimal signed coordinate, a tab, the k-mer and a newline; the lines counter is the number of
candidates kept. -/
theorem C10_output_stream (K : Nat) (S : List Char) (_hK : 0 < K) (hS : Valid S) :
    ∃ RC g0 g, revcomp S = .ok RC ∧ countLoop K S RC Globals.init = .ok g0 ∧
      (∀ X, storedCount g0 X = optCount (bf K S RC X)) ∧
      main K true S = .ok g ∧
      g.written = expectedOutput K S RC (storedCount g0) ∧
      g.written = expectedOutput K S RC (fun X => optCount (bf K S RC X)) ∧
      g.linesPrinted = ((candidates K S RC).filter
        (fun c => bf K S RC c.2 = 1 ∧ acgtPure c.2 = true)).length := by
  obtain ⟨g, hrev, hcount, _, hst, _, hl, hw, hmain⟩ := main_spec K S hS
  have hsame : storedCount g = fun Y => optCount (bf K S (rcOf S) Y) := by
    funext Y
    exact hst Y
  have hout : (afterCandidates true (bf K S (rcOf S)) (candidates K S (rcOf S)) g).written =
      expectedOutput K S (rcOf S) (fun X => optCount (bf K S (rcOf S) X)) := by
    show g.written ++ _ = _
    rw [hw, List.nil_append]
    exact expectedOutput_upTo K S (rcOf S) (bf K S (rcOf S)) _
  refine ⟨rcOf S, g, _, hrev, hcount, hst, hmain, ?_, hout, ?_⟩
  · rw [hsame]; exact hout
  · show g.linesPrinted + _ = _
    rw [hl, Nat.zero_add]
    congr 1
    apply List.filter_congr
    intro c _
    simp

/-- Witness for C10 at the sequence `ATGCANT` with `K = 3`. -/
theorem C10_output_stream_witness :
    0 < 3 ∧ Valid ['A', 'T', 'G', 'C', 'A', 'N', 'T'] ∧
    ∃ RC g0 g, revcomp ['A', 'T', 'G', 'C', 'A', 'N', 'T'] = .ok RC ∧
      countLoop 3 ['A', 'T', 'G', 'C', 'A', 'N', 'T'] RC Globals.init = .ok g0 ∧
      (∀ X, storedCount g0 X = optCount (bf 3 ['A', 'T', 'G', 'C', 'A', 'N', 'T'] RC X)) ∧
      main 3 true ['A', 'T', 'G', 'C', 'A', 'N', 'T'] = .ok g ∧
      g.written = expectedOutput 3 ['A', 'T', 'G', 'C', 'A', 'N', 'T'] RC (storedCount g0) ∧
      g.written = expectedOutput 3 ['A', 'T', 'G', 'C', 'A', 'N', 'T'] RC
        (fun X => optCount (bf 3 ['A', 'T', 'G', 'C', 'A', 'N', 'T'] RC X)) ∧
      g.linesPrinted = ((candidates 3 ['A', 'T', 'G', 'C', 'A', 'N', 'T'] RC).filter
        (fun c => bf 3 ['A', 'T', 'G', 'C', 'A', 'N', 'T'] RC c.2 = 1 ∧
          acgtPure c.2 = true)).length :=
  ⟨by decide, by decide,
    C10_output_stream 3 ['A', 'T', 'G', 'C', 'A', 'N', 'T'] (by decide) (by decide)⟩

/-- Claim C11 (coordinate sign), evaluated at its own input `K = 3`, `S = ATGCAT`, whose
reverse complement is `ATGCAT` again.  The iteration of the second loop at offset 2 hands
`outputKmer` the forward candidate with coordinate 2 and k-mer `S[2:5] = GCA`, as claimed,
then the reverse candidate with coordinate -2 and k-mer `RC[2:5] = GCA`; the reverse
complement of `S[2:5]`, which the claim expects there, is `TGC`, and `GCA` is the reverse
complement of `S[1:4]`. -/
theorem C11_reverse_content_differs :
    revcomp ['A', 'T', 'G', 'C', 'A', 'T'] = .ok ['A', 'T', 'G', 'C', 'A', 'T'] ∧
    (∀ w g,
      streamBody 3 w ['A', 'T', 'G', 'C', 'A', 'T'] ['A', 'T', 'G', 'C', 'A', 'T'] g 2 =
        [((2 : Int), ['G', 'C', 'A']), ((-2 : Int), ['G', 'C', 'A'])].foldlM
          (fun g c => outputKmer 3 w c.1 c.2 g) g) ∧
    (candidates 3 ['A', 'T', 'G', 'C', 'A', 'T'] ['A', 'T', 'G', 'C', 'A', 'T'])[5]? =
      some (-2, ['G', 'C', 'A']) ∧
    substr ['A', 'T', 'G', 'C', 'A', 'T'] 2 5 = ['G', 'C', 'A'] ∧
    revcomp (substr ['A', 'T', 'G', 'C', 'A', 'T'] 2 5) = .ok ['T', 'G', 'C'] ∧
    (['G', 'C', 'A'] : List Char) ≠ ['T', 'G', 'C'] ∧
    revcomp (substr ['A', 'T', 'G', 'C', 'A', 'T'] 1 4) = .ok ['G', 'C', 'A'] := by
  refine ⟨by decide, ?_, by decide, by decide, by decide, by decide, by decide⟩
  intro w g
  exact streamBody_eq 3 w ['A', 'T', 'G', 'C', 'A', 'T'] ['A', 'T', 'G', 'C', 'A', 'T']
    g 2 (by decide) rfl

/-- Claim C12 (empty result).  For a valid sequence shorter than `K` the reverse complement
succeeds, the counting loop ends normally with an empty index, there is no candidate, and the
run ends normally in the initial state: no key, no count, both counters 0, nothing
written. -/
theorem C12_empty_result (K : Nat) (hasOutput : Bool) (S : List Char) (hS : Valid S)
    (hK : S.length < K) :
    ∃ RC, revcomp S = .ok RC ∧ countLoop K S RC Globals.init = .ok Globals.init ∧
      candidates K S RC = [] ∧ main K hasOutput S = .ok Globals.init ∧
      Globals.init.kmerToIndex = [] ∧ Globals.init.kmerCounts = [] ∧
      Globals.init.unique = 0 ∧ Globals.init.linesPrinted = 0 ∧ Globals.init.written = [] := by
  have h0 : S.length + 1 - K = 0 := by omega
  have hrev : revcomp S = .ok (rcOf S) := revcomp_of_valid hS
  have hcount : countLoop K S (rcOf S) Globals.init = .ok Globals.init := by
    simp only [countLoop, h0, List.range_zero, List.foldlM_nil]
    rfl
  refine ⟨rcOf S, hrev, hcount, ?_, ?_, rfl, rfl, rfl, rfl, rfl⟩
  · simp [candidates, candidatesUpTo, h0]
  · simp only [main, hrev, exitWith, hcount, streamLoop, h0, List.range_zero, List.foldlM_nil]
    rfl

/-- Witness for C12 at the sequence `ATG` with `K = 5`. -/
theorem C12_empty_result_witness :
    Valid ['A', 'T', 'G'] ∧ ['A', 'T', 'G'].length < 5 ∧
    ∃ RC, revcomp ['A', 'T', 'G'] = .ok RC ∧
      countLoop 5 ['A', 'T', 'G'] RC Globals.init = .ok Globals.init ∧
      candidates 5 ['A', 'T', 'G'] RC = [] ∧ main 5 true ['A', 'T', 'G'] = .ok Globals.init ∧
      Globals.init.kmerToIndex = [] ∧ Globals.init.kmerCounts = [] ∧
      Globals.init.unique = 0 ∧ Globals.init.linesPrinted = 0 ∧ Globals.init.written = [] :=
  ⟨by decide, by decide, C12_empty_result 5 true ['A', 'T', 'G'] (by decide) (by decide)⟩

/-- Counterexample to claim C13 as stated: the valid uppercase sequence `ACGTN` with `K = 1`
gives an index of 5 entries, more than `min (4^1) (2*(5-1+1)) = 4`. -/
theorem C13_four_pow_bound_fails :
    (∀ c ∈ ['A', 'C', 'G', 'T', 'N'], c ∈ upperAlphabet) ∧
    Valid ['A', 'C', 'G', 'T', 'N'] ∧ 0 < 1 ∧ 1 ≤ ['A', 'C', 'G', 'T', 'N'].length ∧
    revcomp ['A', 'C', 'G', 'T', 'N'] = .ok ['N', 'A', 'C', 'G', 'T'] ∧
    (countLoop 1 ['A', 'C', 'G', 'T', 'N'] ['N', 'A', 'C', 'G', 'T'] Globals.init).map
      (fun g => g.kmerCounts.length) = .ok 5 ∧
    ¬ (5 ≤ min (4 ^ 1) (2 * (['A', 'C', 'G', 'T', 'N'].length - 1 + 1))) := by
  decide

/-- Claim C13 as amended (size of the index).  For a sequence over {A,T,G,C,N} of length `L`
and `0 < K ≤ L`, the index has as many counts as keys and at most
`min (5^K) (2*(L-K+1))` of them; when the sequence contains no `N`, at most
`min (4^K) (2*(L-K+1))`. -/
theorem C13_index_size (K : Nat) (S : List Char) (hA : ∀ c ∈ S, c ∈ upperAlphabet)
    (_hK : 0 < K) (hL : K ≤ S.length) :
    ∃ RC g, revcomp S = .ok RC ∧ countLoop K S RC Globals.init = .ok g ∧
      g.kmerToIndex.length = g.kmerCounts.length ∧
      g.kmerCounts.length ≤ min (5 ^ K) (2 * (S.length - K + 1)) ∧
      ('N' ∉ S → g.kmerCounts.length ≤ min (4 ^ K) (2 * (S.length - K + 1))) := by
  have hS : Valid S := by
    intro c hc
    have := hA c hc
    rw [recognized_iff]
    simp only [upperAlphabet, List.mem_cons, List.mem_singleton, List.not_mem_nil,
      or_false] at this ⊢
    tauto
  obtain ⟨g, hcount, hwf, hst, _, _, _⟩ :=
    countLoop_spec K S (rcOf S) (rcOf_length S) Globals.init
  refine ⟨rcOf S, g, revcomp_of_valid hS, hcount, hwf.len, ?_, ?_⟩
  · have h5 : upperAlphabet.toFinset.card = 5 := by decide
    have := index_size_le upperAlphabet (by decide) K S hA hL hwf hst
    rwa [h5] at this
  · intro hN
    have h4 : ['A', 'T', 'G', 'C'].toFinset.card = 4 := by decide
    have hA4 : ∀ c ∈ S, c ∈ ['A', 'T', 'G', 'C'] := by
      intro c hc
      have h1 := hA c hc
      have h2 : c ≠ 'N' := fun e => hN (e ▸ hc)
      simp only [upperAlphabet, List.mem_cons, List.mem_singleton, List.not_mem_nil,
        or_false] at h1 ⊢
      tauto
    have := index_size_le ['A', 'T', 'G', 'C'] (by decide) K S hA4 hL hwf hst
    rwa [h4] at this

/-- Witness for C13 (amended) at the sequence `ACGTN` with `K = 1`. -/
theorem C13_index_size_witness :
    (∀ c ∈ ['A', 'C', 'G', 'T', 'N'], c ∈ upperAlphabet) ∧ 0 < 1 ∧
    1 ≤ ['A', 'C', 'G', 'T', 'N'].length ∧
    ∃ RC g, revcomp ['A', 'C', 'G', 'T', 'N'] = .ok RC ∧
      countLoop 1 ['A', 'C', 'G', 'T', 'N'] RC Globals.init = .ok g ∧
      g.kmerToIndex.length = g.kmerCounts.length ∧
      g.kmerCounts.length ≤ min (5 ^ 1) (2 * (['A', 'C', 'G', 'T', 'N'].length - 1 + 1)) ∧
      ('N' ∉ ['A', 'C', 'G', 'T', 'N'] →
        g.kmerCounts.length ≤ min (4 ^ 1) (2 * (['A', 'C', 'G', 'T', 'N'].length - 1 + 1))) :=
  ⟨by decide, by decide, by decide,
    C13_index_size 1 ['A', 'C', 'G', 'T', 'N'] (by decide) (by decide) (by decide)⟩

/-- Claim C14 (meaning of the dedup test), evaluated where the code departs from it.  For
`ACGT` with `K = 2` the reverse extract at offset 0 equals the forward extract `AC`, so the
first iteration of the counting loop skips the second increment and leaves the count 1, yet
`AC` is not its own reverse complement (that is `GT`). -/
theorem C14_equal_extracts_not_selfcomplementary :
    revcomp ['A', 'C', 'G', 'T'] = .ok ['A', 'C', 'G', 'T'] ∧
    substr ['A', 'C', 'G', 'T'] 0 2 = ['A', 'C'] ∧
    revcomp ['A', 'C'] = .ok ['G', 'T'] ∧
    ¬ selfComplementary ['A', 'C'] ∧
    (countIterations 2 ['A', 'C', 'G', 'T'] ['A', 'C', 'G', 'T'] 1).map
      (fun g => (g.kmerToIndex, g.kmerCounts)) = .ok ([(['A', 'C'], 0)], [1]) := by
  decide

/-- Claim C15 (coordinate ambiguity at offset 0).  For a valid sequence with `L ≥ K > 0`, the
iteration of the second loop at offset 0 passes both its candidates to `outputKmer` with the
coordinate 0; at every offset `i > 0` the two coordinates `i` and `-i` differ and are rendered
differently.  The run on `AC` with `K = 1` writes two lines with coordinate 0 and different
k-mers (`A` from the forward strand, `G` from the reverse strand). -/
theorem C15_offset_zero_ambiguity (K : Nat) (w : Writer) (S : List Char) (hS : Valid S)
    (_hK : 0 < K) (hL : K ≤ S.length) :
    ∃ RC, revcomp S = .ok RC ∧
      (∀ g, streamBody K w S RC g 0 =
        [((0 : Int), substr S 0 (0 + K)), ((0 : Int), substr RC 0 (0 + K))].foldlM
          (fun g c => outputKmer K w c.1 c.2 g) g) ∧
      (∀ i, 0 < i → i + K ≤ S.length →
        (∀ g, streamBody K w S RC g i =
          [((i : Int), substr S i (i + K)), (-(i : Int), substr RC i (i + K))].foldlM
            (fun g c => outputKmer K w c.1 c.2 g) g) ∧
        (i : Int) ≠ -(i : Int) ∧ fmtD (i : Int) ≠ fmtD (-(i : Int))) ∧
      (main 1 true ['A', 'C']).map (fun g => g.written) =
        .ok ['0', '\t', 'A', '\n', '0', '\t', 'G', '\n', '1', '\t', 'C', '\n',
          '-', '1', '\t', 'T', '\n'] := by
  refine ⟨rcOf S, revcomp_of_valid hS, ?_, ?_, by decide⟩
  · intro g
    have := streamBody_eq K w S (rcOf S) g 0 (by omega) (rcOf_length S)
    simpa using this
  · intro i hi hiK
    refine ⟨fun g => streamBody_eq K w S (rcOf S) g i hiK (rcOf_length S), by omega, ?_⟩
    obtain ⟨n, rfl⟩ : ∃ n, i = n + 1 := ⟨i - 1, by omega⟩
    intro h
    have h' : Nat.toDigits 10 (n + 1) = '-' :: Nat.toDigits 10 (n + 1) := h
    have := congrArg List.length h'
    simp at this

/-- Witness for C15 at the sequence `ACG` with `K = 2`. -/
theorem C15_offset_zero_ambiguity_witness :
    Valid ['A', 'C', 'G'] ∧ 0 < 2 ∧ 2 ≤ ['A', 'C', 'G'].length ∧
    ∃ RC, revcomp ['A', 'C', 'G'] = .ok RC ∧
      (∀ g, streamBody 2 Writer.working ['A', 'C', 'G'] RC g 0 =
        [((0 : Int), substr ['A', 'C', 'G'] 0 (0 + 2)), ((0 : Int), substr RC 0 (0 + 2))].foldlM
          (fun g c => outputKmer 2 Writer.working c.1 c.2 g) g) ∧
      (∀ i, 0 < i → i + 2 ≤ ['A', 'C', 'G'].length →
        (∀ g, streamBody 2 Writer.working ['A', 'C', 'G'] RC g i =
          [((i : Int), substr ['A', 'C', 'G'] i (i + 2)),
            (-(i : Int), substr RC i (i + 2))].foldlM
            (fun g c => outputKmer 2 Writer.working c.1 c.2 g) g) ∧
        (i : Int) ≠ -(i : Int) ∧ fmtD (i : Int) ≠ fmtD (-(i : Int))) ∧
      (main 1 true ['A', 'C']).map (fun g => g.written) =
        .ok ['0', '\t', 'A', '\n', '0', '\t', 'G', '\n', '1', '\t', 'C', '\n',
          '-', '1', '\t', 'T', '\n'] :=
  ⟨by decide, by decide, by decide,
    C15_offset_zero_ambiguity 2 Writer.working ['A', 'C', 'G'] (by decide) (by decide) (by decide)⟩

/-- Claim C16 (which forward k-mer the reverse extract mirrors).  For a valid sequence of
length `L`, `0 < K` and an offset `i` with `i + K ≤ L`, the reverse-strand extract
`RC[i:i+K]`, which the second loop emits with coordinate `-i`, is the reverse complement of
the forward k-mer `S[L-K-i : L-i]`.  It need not be the reverse complement of `S[i:i+K]`:
in `ATG` with `K = 2` the extract at offset 0 is `CA` while `revcomp (AT) = AT`. -/
theorem C16_reverse_extract_mirror (K : Nat) (S : List Char) (i : Nat) (hS : Valid S)
    (_hK : 0 < K) (hi : i + K ≤ S.length) :
    ∃ RC, revcomp S = .ok RC ∧
      revcomp (substr S (S.length - K - i) (S.length - i)) = .ok (substr RC i (i + K)) ∧
      (-(i : Int), substr RC i (i + K)) ∈ candidates K S RC ∧
      (revcomp ['A', 'T', 'G'] = .ok ['C', 'A', 'T'] ∧
        substr ['C', 'A', 'T'] 0 2 = ['C', 'A'] ∧
        revcomp (substr ['A', 'T', 'G'] 0 2) = .ok ['A', 'T']) := by
  refine ⟨rcOf S, revcomp_of_valid hS, ?_, ?_, by decide⟩
  · rw [revcomp_of_valid (valid_substr hS _ _), substr_rcOf S i K hi]
    rfl
  · simp only [candidates, candidatesUpTo, List.mem_flatMap, List.mem_range, List.mem_cons,
      List.mem_singleton, List.not_mem_nil, or_false]
    exact ⟨i, by omega, Or.inr rfl⟩

/-- Witness for C16 at the sequence `ATGCANT`, `K = 3`, offset 1. -/
theorem C16_reverse_extract_mirror_witness :
    Valid ['A', 'T', 'G', 'C', 'A', 'N', 'T'] ∧ 0 < 3 ∧
    1 + 3 ≤ ['A', 'T', 'G', 'C', 'A', 'N', 'T'].length ∧
    ∃ RC, revcomp ['A', 'T', 'G', 'C', 'A', 'N', 'T'] = .ok RC ∧
      revcomp (substr ['A', 'T', 'G', 'C', 'A', 'N', 'T']
        (['A', 'T', 'G', 'C', 'A', 'N', 'T'].length - 3 - 1)
        (['A', 'T', 'G', 'C', 'A', 'N', 'T'].length - 1)) = .ok (substr RC 1 (1 + 3)) ∧
      (-((1 : Nat) : Int), substr RC 1 (1 + 3)) ∈
        candidates 3 ['A', 'T', 'G', 'C', 'A', 'N', 'T'] RC ∧
      (revcomp ['A', 'T', 'G'] = .ok ['C', 'A', 'T'] ∧
        substr ['C', 'A', 'T'] 0 2 = ['C', 'A'] ∧
        revcomp (substr ['A', 'T', 'G'] 0 2) = .ok ['A', 'T']) :=
  ⟨by decide, by decide, by decide,
    C16_reverse_extract_mirror 3 ['A', 'T', 'G', 'C', 'A', 'N', 'T'] 1 (by decide) (by decide)
      (by decide)⟩

/-- Claim C17 (strand symmetry of the counts).  For a valid sequence, `K > 0` and a valid
k-mer content `X`, after the counting loop `X` and its reverse complement have the same
stored count: both are absent, or both are keys with equal counts; hence one is unique iff
the other is. -/
theorem C17_count_symmetry (K : Nat) (S X : List Char) (hS : Valid S) (_hK : 0 < K)
    (hX : Valid X) :
    ∃ RC g Y, revcomp S = .ok RC ∧ countLoop K S RC Globals.init = .ok g ∧
      revcomp X = .ok Y ∧ storedCount g X = storedCount g Y ∧
      (storedCount g X = some 1 ↔ storedCount g Y = some 1) := by
  obtain ⟨g, hcount, _, hst, _, _, _⟩ :=
    countLoop_spec K S (rcOf S) (rcOf_length S) Globals.init
  have heq : storedCount g X = storedCount g (rcOf X) := by
    rw [hst, hst, bf_rcOf K S hS X hX]
  exact ⟨rcOf S, g, rcOf X, revcomp_of_valid hS, hcount, revcomp_of_valid hX, heq, by rw [heq]⟩

/-- Witness for C17 at the sequence `ATGCANT`, `K = 3`, `X = TGC`. -/
theorem C17_count_symmetry_witness :
    Valid ['A', 'T', 'G', 'C', 'A', 'N', 'T'] ∧ 0 < 3 ∧ Valid ['T', 'G', 'C'] ∧
    ∃ RC g Y, revcomp ['A', 'T', 'G', 'C', 'A', 'N', 'T'] = .ok RC ∧
      countLoop 3 ['A', 'T', 'G', 'C', 'A', 'N', 'T'] RC Globals.init = .ok g ∧
      revcomp ['T', 'G', 'C'] = .ok Y ∧ storedCount g ['T', 'G', 'C'] = storedCount g Y ∧
      (storedCount g ['T', 'G', 'C'] = some 1 ↔ storedCount g Y = some 1) :=
  ⟨by decide, by decide, by decide,
    C17_count_symmetry 3 ['A', 'T', 'G', 'C', 'A', 'N', 'T'] ['T', 'G', 'C'] (by decide)
      (by decide) (by decide)⟩

/-- Claim C18 (sum of the counts).  For a valid sequence of length `L` and `0 < K ≤ L`, after
the counting loop the counts of the index, added over its keys (equivalently, over the slice
`kmerCounts`), come to `2*(L-K+1)` minus the number of offsets `i` in `0 .. L-K` at which
`S[i:i+K] = RC[i:i+K]`. -/
theorem C18_sum_of_counts (K : Nat) (S : List Char) (hS : Valid S) (_hK : 0 < K)
    (hL : K ≤ S.length) :
    ∃ RC g, revcomp S = .ok RC ∧ countLoop K S RC Globals.init = .ok g ∧
      indexSum g = 2 * (S.length - K + 1) - sameOffsetEqual K S RC ∧
      g.kmerCounts.sum = indexSum g := by
  obtain ⟨g, hcount, hwf, hst, _, _, _⟩ :=
    countLoop_spec K S (rcOf S) (rcOf_length S) Globals.init
  refine ⟨rcOf S, g, revcomp_of_valid hS, hcount, ?_, (indexSum_eq_sum hwf).symm⟩
  have h := indexSum_upTo hwf K S (rcOf S) (S.length + 1 - K) hst
  unfold sameOffsetEqual
  omega

/-- Witness for C18 at the sequence `ATG` with `K = 2`. -/
theorem C18_sum_of_counts_witness :
    Valid ['A', 'T', 'G'] ∧ 0 < 2 ∧ 2 ≤ ['A', 'T', 'G'].length ∧
    ∃ RC g, revcomp ['A', 'T', 'G'] = .ok RC ∧
      countLoop 2 ['A', 'T', 'G'] RC Globals.init = .ok g ∧
      indexSum g = 2 * (['A', 'T', 'G'].length - 2 + 1) - sameOffsetEqual 2 ['A', 'T', 'G'] RC ∧
      g.kmerCounts.sum = indexSum g :=
  ⟨by decide, by decide, by decide,
    C18_sum_of_counts 2 ['A', 'T', 'G'] (by decide) (by decide) (by decide)⟩

/-- Claim C19 (index invariant).  For a valid sequence, after any number `n` of complete
iterations of the counting loop (all of them included), the loop has not panicked and:
`kmerToIndex` maps its keys one-to-one onto `0 .. len(kmerCounts)-1`; no key is repeated and
`len(kmerCounts)` is the number of keys; the keys are exactly the k-mers extracted so far
from either strand; every stored count is at least 1.  The lookup-or-insert of a k-mer always
leaves it a key, so a reverse extract equal to the forward extract is found, not inserted. -/
theorem C19_index_invariant (K : Nat) (S : List Char) (n : Nat) (hS : Valid S)
    (hn : n ≤ S.length + 1 - K) :
    ∃ RC g, revcomp S = .ok RC ∧ countIterations K S RC n = .ok g ∧
      countLoop K S RC Globals.init = countIterations K S RC (S.length + 1 - K) ∧
      (∀ X idx, mapGet g.kmerToIndex X = some idx → idx < g.kmerCounts.length) ∧
      (∀ X Y idx, mapGet g.kmerToIndex X = some idx → mapGet g.kmerToIndex Y = some idx →
        X = Y) ∧
      (∀ idx, idx < g.kmerCounts.length → ∃ X, mapGet g.kmerToIndex X = some idx) ∧
      (g.kmerToIndex.map Prod.fst).Nodup ∧
      g.kmerToIndex.length = g.kmerCounts.length ∧
      (∀ X, X ∈ g.kmerToIndex.map Prod.fst ↔
        ∃ i, i < n ∧ (substr S i (i + K) = X ∨ substr RC i (i + K) = X)) ∧
      (∀ c ∈ g.kmerCounts, 1 ≤ c) ∧
      (∀ (h : Globals) (X : List Char),
        mapGet (lookupOrInsert h X).2.kmerToIndex X = some (lookupOrInsert h X).1) := by
  obtain ⟨g, hfold, hwf, hst, _, _, _⟩ :=
    countLoop_upTo K S (rcOf S) (rcOf_length S) Globals.init n hn
  refine ⟨rcOf S, g, revcomp_of_valid hS, hfold, rfl, fun X idx h => hwf.lt h,
    fun X Y idx h1 h2 => hwf.inj h1 h2, fun idx h => hwf.surj h, hwf.keys, hwf.len, ?_,
    counts_pos hwf hst, lookupOrInsert_present⟩
  intro X
  rw [mem_keys_iff hwf hst X, bfUpTo_pos_iff]

/-- Witness for C19 at the sequence `ATGCANT` with `K = 3` after 2 iterations. -/
theorem C19_index_invariant_witness :
    Valid ['A', 'T', 'G', 'C', 'A', 'N', 'T'] ∧
    2 ≤ ['A', 'T', 'G', 'C', 'A', 'N', 'T'].length + 1 - 3 ∧
    ∃ RC g, revcomp ['A', 'T', 'G', 'C', 'A', 'N', 'T'] = .ok RC ∧
      countIterations 3 ['A', 'T', 'G', 'C', 'A', 'N', 'T'] RC 2 = .ok g ∧
      countLoop 3 ['A', 'T', 'G', 'C', 'A', 'N', 'T'] RC Globals.init =
        countIterations 3 ['A', 'T', 'G', 'C', 'A', 'N', 'T'] RC
          (['A', 'T', 'G', 'C', 'A', 'N', 'T'].length + 1 - 3) ∧
      (∀ X idx, mapGet g.kmerToIndex X = some idx → idx < g.kmerCounts.length) ∧
      (∀ X Y idx, mapGet g.kmerToIndex X = some idx → mapGet g.kmerToIndex Y = some idx →
        X = Y) ∧
      (∀ idx, idx < g.kmerCounts.length → ∃ X, mapGet g.kmerToIndex X = some idx) ∧
      (g.kmerToIndex.map Prod.fst).Nodup ∧
      g.kmerToIndex.length = g.kmerCounts.length ∧
      (∀ X, X ∈ g.kmerToIndex.map Prod.fst ↔
        ∃ i, i < 2 ∧ (substr ['A', 'T', 'G', 'C', 'A', 'N', 'T'] i (i + 3) = X ∨
          substr RC i (i + 3) = X)) ∧
      (∀ c ∈ g.kmerCounts, 1 ≤ c) ∧
      (∀ (h : Globals) (X : List Char),
        mapGet (lookupOrInsert h X).2.kmerToIndex X = some (lookupOrInsert h X).1) :=
  ⟨by decide, by decide,
    C19_index_invariant 3 ['A', 'T', 'G', 'C', 'A', 'N', 'T'] 2 (by decide) (by decide)⟩

/-- Claim C20 (safety of the second loop).  For a valid sequence and `K > 0`, the second loop
hands `outputKmer` exactly the candidates `S[i:i+K]` and `RC[i:i+K]`, `i` in `0 .. L-K`, in
order, whatever the writer; each of them is a key of the completed index, so the map read
returns its own index, that index is within `kmerCounts`, and every byte position `j < K` is
within the k-mer; hence no call of `outputKmer` on a candidate, and no run, with or without
`-output`, ends with an out-of-range panic.  The run with `-output` ends normally, with the
index unchanged by the second loop. -/
theorem C20_candidates_are_keys (K : Nat) (S : List Char) (hS : Valid S) (_hK : 0 < K) :
    ∃ RC g, revcomp S = .ok RC ∧ countLoop K S RC Globals.init = .ok g ∧
      (∀ (w : Writer) (h : Globals), streamLoop K w S RC h =
        (candidates K S RC).foldlM (fun g c => outputKmer K w c.1 c.2 g) h) ∧
      (∀ c ∈ candidates K S RC, ∃ idx, mapGet g.kmerToIndex c.2 = some idx ∧
        idx < g.kmerCounts.length ∧ ∀ j, j < K → j < c.2.length) ∧
      (∀ c ∈ candidates K S RC, ∀ (w : Writer) (h : Globals),
        h.kmerToIndex = g.kmerToIndex → h.kmerCounts = g.kmerCounts →
        ∀ x, outputKmer K w c.1 c.2 h ≠ .error ⟨.outOfRange, x⟩) ∧
      (∀ hasOutput x, main K hasOutput S ≠ .error ⟨.outOfRange, x⟩) ∧
      ∃ gfin, main K true S = .ok gfin ∧
        gfin.kmerToIndex = g.kmerToIndex ∧ gfin.kmerCounts = g.kmerCounts := by
  obtain ⟨g, hrev, hcount, hwf, hst, _, _, _, hmain⟩ := main_spec K S hS
  have hcs := candidates_stored K S (rcOf S) (rcOf_length S) g hst
  refine ⟨rcOf S, g, hrev, hcount,
    fun w h => streamFold_eq K w S (rcOf S) (rcOf_length S) _ (Nat.le_refl _) h, ?_, ?_, ?_,
    ⟨_, hmain, rfl, rfl⟩⟩
  · intro c hc
    obtain ⟨hs, hlen⟩ := hcs c hc
    obtain ⟨idx, hidx⟩ := mapGet_isSome_of_storedCount hs
    exact ⟨idx, hidx, hwf.lt hidx, fun j hj => by omega⟩
  · intro c hc w h hm hk x
    have hsame : ∀ Y, storedCount h Y = storedCount g Y := by
      intro Y; simp [storedCount, hm, hk]
    rw [outputKmer_spec K w c.1 c.2 h (bf K S (rcOf S) c.2)
      (by rw [hsame]; exact (hcs c hc).1) (hcs c hc).2]
    split_ifs <;> simp
  · intro hasOutput x
    simp only [main, hrev, exitWith, hcount]
    rw [show streamLoop K (if hasOutput = true then Writer.working else Writer.nilPointer) S
        (rcOf S) g = (candidates K S (rcOf S)).foldlM
          (fun g c => outputKmer K (if hasOutput = true then Writer.working
            else Writer.nilPointer) c.1 c.2 g) g from
      streamFold_eq K _ S (rcOf S) (rcOf_length S) _ (Nat.le_refl _) g]
    exact outputKmer_fold_safe K _ (bf K S (rcOf S)) (candidates K S (rcOf S)) g hcs x

/-- Witness for C20 at the sequence `ATGCANT` with `K = 3`. -/
theorem C20_candidates_are_keys_witness :
    Valid ['A', 'T', 'G', 'C', 'A', 'N', 'T'] ∧ 0 < 3 ∧
    ∃ RC g, revcomp ['A', 'T', 'G', 'C', 'A', 'N', 'T'] = .ok RC ∧
      countLoop 3 ['A', 'T', 'G', 'C', 'A', 'N', 'T'] RC Globals.init = .ok g ∧
      (∀ (w : Writer) (h : Globals), streamLoop 3 w ['A', 'T', 'G', 'C', 'A', 'N', 'T'] RC h =
        (candidates 3 ['A', 'T', 'G', 'C', 'A', 'N', 'T'] RC).foldlM
          (fun g c => outputKmer 3 w c.1 c.2 g) h) ∧
      (∀ c ∈ candidates 3 ['A', 'T', 'G', 'C', 'A', 'N', 'T'] RC,
        ∃ idx, mapGet g.kmerToIndex c.2 = some idx ∧
          idx < g.kmerCounts.length ∧ ∀ j, j < 3 → j < c.2.length) ∧
      (∀ c ∈ candidates 3 ['A', 'T', 'G', 'C', 'A', 'N', 'T'] RC, ∀ (w : Writer) (h : Globals),
        h.kmerToIndex = g.kmerToIndex → h.kmerCounts = g.kmerCounts →
        ∀ x, outputKmer 3 w c.1 c.2 h ≠ .error ⟨.outOfRange, x⟩) ∧
      (∀ hasOutput x,
        main 3 hasOutput ['A', 'T', 'G', 'C', 'A', 'N', 'T'] ≠ .error ⟨.outOfRange, x⟩) ∧
      ∃ gfin, main 3 true ['A', 'T', 'G', 'C', 'A', 'N', 'T'] = .ok gfin ∧
        gfin.kmerToIndex = g.kmerToIndex ∧ gfin.kmerCounts = g.kmerCounts :=
  ⟨by decide, by decide,
    C20_candidates_are_keys 3 ['A', 'T', 'G', 'C', 'A', 'N', 'T'] (by decide) (by decide)⟩

end Genomeuniqfrac
